import Mathlib

/-!
Formal model of the crawl-and-extract core of the Trust-Aware-SEO repository.

The repository's core lives in `crawler/crawler.py` (`_same_domain`,
`_normalize`, `crawl_site`) and `crawler/parser.py` (`parse_page`,
`fetch_page`).  Those functions lean on Python's `urllib.parse`
(`urlparse`, `urljoin`), which is modelled here on `List Char` following
the CPython implementation of `urlsplit` / `urlparse` / `_splitparams` /
`urljoin` / `urlunparse` / `urlunsplit`.  The model omits CPython's
WHATWG-motivated stripping of ASCII control characters, tabs and
newlines from the input (all inputs of interest here are free of those),
and the `ValueError` raised on unbalanced `[`/`]` in a host (no input of
interest contains brackets); everything else follows the library code
branch by branch.

Network effects are abstracted: `crawl_site` receives the fetch function
(`String → Nat × String`, the model of `fetch_page`'s status/body pair)
and the link-extraction function (`String → String → List String`, the
model of the `internal_links` field computed by `parse_page` from the
page URL and its HTML) as parameters.  A ghost trace records every URL
passed to the fetcher, in order, so that statements about "what gets
fetched" can be made.
-/

set_option maxRecDepth 4000

/-! ### Characters and low-level string splitting -/

/-- Characters allowed in a URL scheme, after the leading letter:
letters, digits, `+`, `-`, `.` (CPython's `scheme_chars`). -/
def isSchemeChar (c : Char) : Bool :=
  c.isAlpha || c.isDigit || c == '+' || c == '-' || c == '.'

/-- Split a character list at the first occurrence of `sep`
(`str.split(sep, 1)` when `sep` occurs; `none` when it does not). -/
def splitAtChar (sep : Char) : List Char → Option (List Char × List Char)
  | [] => none
  | c :: cs =>
    if c = sep then some ([], cs)
    else
      match splitAtChar sep cs with
      | none => none
      | some p => some (c :: p.1, p.2)

/-- Characters that terminate the network-location part of a URL
(CPython `_splitnetloc` stops at `/`, `?` and `#`). -/
def isNetlocDelim (c : Char) : Bool :=
  c == '/' || c == '?' || c == '#'

/-- Strip every trailing `/` (Python `path.rstrip("/")`). -/
def rstripSlashes (l : List Char) : List Char :=
  (l.reverse.dropWhile (fun c => c = '/')).reverse

/-- Split on a separating character, Python `str.split(sep)`:
`"".split` gives `[""]`, separators at the ends give empty pieces. -/
def splitOnChar (sep : Char) : List Char → List (List Char)
  | [] => [[]]
  | c :: cs =>
    let r := splitOnChar sep cs
    if c = sep then [] :: r
    else
      match r with
      | [] => [[c]]
      | h :: t => (c :: h) :: t

/-! ### `urllib.parse` model -/

/-- The six components of CPython's `ParseResult`. -/
structure UrlParts where
  scheme : List Char
  netloc : List Char
  path : List Char
  params : List Char
  query : List Char
  fragment : List Char
deriving DecidableEq

/-- A candidate scheme is valid when it is nonempty, starts with an
ASCII letter, and consists of scheme characters only (the test guarding
`scheme, url = url[:i].lower(), url[i+1:]` in CPython `urlsplit`). -/
def validScheme (s : List Char) : Bool :=
  match s with
  | [] => false
  | c :: _ => c.isAlpha && s.all isSchemeChar

/-- Detach the scheme: CPython `urlsplit` looks at the text before the
first `:`; if that prefix is a valid scheme it is lowercased and
removed, otherwise the URL is left intact and no scheme is found. -/
def splitScheme (url : List Char) : List Char × List Char :=
  match splitAtChar ':' url with
  | none => ([], url)
  | some p =>
    if validScheme p.1 then (p.1.map Char.toLower, p.2) else ([], url)

/-- Detach the network location: when the remainder starts with `//`,
the netloc runs up to the next `/`, `?` or `#` (CPython `_splitnetloc`). -/
def splitNetloc (rest : List Char) : List Char × List Char :=
  if rest.take 2 = ['/', '/'] then
    ((rest.drop 2).takeWhile (fun c => !isNetlocDelim c),
     (rest.drop 2).dropWhile (fun c => !isNetlocDelim c))
  else ([], rest)

/-- Detach the fragment at the first `#`, if any (CPython `urlsplit`
with `allow_fragments=True`). -/
def splitFragment (l : List Char) : List Char × List Char :=
  match splitAtChar '#' l with
  | none => (l, [])
  | some p => p

/-- Detach the query at the first `?`, if any. -/
def splitQuery (l : List Char) : List Char × List Char :=
  match splitAtChar '?' l with
  | none => (l, [])
  | some p => p

/-- CPython `urlsplit(url, scheme=default)`: scheme, then `//`-netloc,
then fragment, then query; `params` is always empty at this level. -/
def urlsplit (defaultScheme : List Char) (url : List Char) : UrlParts :=
  let sp := splitScheme url
  let scheme := if sp.1 = [] then defaultScheme else sp.1
  let nl := splitNetloc sp.2
  let fr := splitFragment nl.2
  let qu := splitQuery fr.1
  ⟨scheme, nl.1, qu.1, [], qu.2, fr.2⟩

/-- Schemes for which `urlparse` separates `;params` from the path
(CPython `uses_params`; note that the empty scheme is included). -/
def uses_params : List (List Char) :=
  ["", "ftp", "hdl", "prospero", "http", "imap", "https", "shttp", "rtsp",
   "rtsps", "rtspu", "sip", "sips", "mms", "sftp", "tel"].map String.data

/-- CPython `_splitparams`: split `;params` off the last path segment
(only searched after the last `/` when the path contains one). -/
def splitparams (l : List Char) : List Char × List Char :=
  if '/' ∈ l then
    let seg := (l.reverse.takeWhile (fun c => c ≠ '/')).reverse
    let front := l.take (l.length - seg.length)
    match splitAtChar ';' seg with
    | none => (l, [])
    | some p => (front ++ p.1, p.2)
  else
    match splitAtChar ';' l with
    | none => (l, [])
    | some p => p

/-- CPython `urlparse(url, scheme=default)`: `urlsplit`, then the
params split for schemes that use params. -/
def urlparse (defaultScheme : List Char) (url : List Char) : UrlParts :=
  let s := urlsplit defaultScheme url
  if s.scheme ∈ uses_params ∧ ';' ∈ s.path then
    let pp := splitparams s.path
    ⟨s.scheme, s.netloc, pp.1, pp.2, s.query, s.fragment⟩
  else
    ⟨s.scheme, s.netloc, s.path, [], s.query, s.fragment⟩

/-- CPython `urlunsplit((scheme, netloc, url, query, fragment))`. -/
def urlunsplit (scheme netloc path query fragment : List Char) : List Char :=
  let url :=
    if netloc ≠ [] ∨ path.take 2 = ['/', '/'] then
      let url' := if path ≠ [] ∧ path.take 1 ≠ ['/'] then '/' :: path else path
      '/' :: '/' :: (netloc ++ url')
    else path
  let url := if scheme ≠ [] then scheme ++ ':' :: url else url
  let url := if query ≠ [] then url ++ '?' :: query else url
  if fragment ≠ [] then url ++ '#' :: fragment else url

/-- CPython `urlunparse`: re-attach `;params` to the path, then
`urlunsplit`. -/
def urlunparse (p : UrlParts) : List Char :=
  let path := if p.params ≠ [] then p.path ++ ';' :: p.params else p.path
  urlunsplit p.scheme p.netloc path p.query p.fragment

/-- Schemes that allow relative resolution (CPython `uses_relative`). -/
def uses_relative : List (List Char) :=
  ["", "ftp", "http", "gopher", "nntp", "imap", "wais", "file", "https",
   "shttp", "mms", "prospero", "rtsp", "rtsps", "rtspu", "sftp", "svn",
   "svn+ssh", "ws", "wss"].map String.data

/-- Schemes that use a network location (CPython `uses_netloc`). -/
def uses_netloc : List (List Char) :=
  ["", "ftp", "http", "gopher", "nntp", "telnet", "imap", "wais", "file",
   "mms", "https", "shttp", "snews", "prospero", "rtsp", "rtsps", "rtspu",
   "rsync", "svn", "svn+ssh", "sftp", "nfs", "git", "git+ssh", "ws",
   "wss"].map String.data

/-- Keep the first and last segments, and drop empty segments in
between (`segments[1:-1] = filter(None, segments[1:-1])` in `urljoin`). -/
def filterMiddle : List (List Char) → List (List Char)
  | [] => []
  | [a] => [a]
  | a :: rest => a :: (rest.dropLast.filter (fun s => !s.isEmpty)) ++ [rest.getLastD []]

/-- The segment-resolution loop of CPython `urljoin`: `..` pops (a pop
of an empty stack is ignored), `.` is skipped, anything else pushes. -/
def resolveSegments (acc : List (List Char)) : List (List Char) → List (List Char)
  | [] => acc
  | seg :: rest =>
    if seg = ['.', '.'] then resolveSegments acc.dropLast rest
    else if seg = ['.'] then resolveSegments acc rest
    else resolveSegments (acc ++ [seg]) rest

/-- CPython `urljoin(base, url)` on character lists, branch by branch. -/
def urljoinCore (base url : List Char) : List Char :=
  if base = [] then url
  else if url = [] then base
  else
    let b := urlparse [] base
    let u := urlparse b.scheme url
    if u.scheme ≠ b.scheme ∨ u.scheme ∉ uses_relative then url
    else if u.scheme ∈ uses_netloc ∧ u.netloc ≠ [] then urlunparse u
    else
      let netloc := if u.scheme ∈ uses_netloc then b.netloc else u.netloc
      if u.path = [] ∧ u.params = [] then
        let query := if u.query = [] then b.query else u.query
        urlunparse ⟨u.scheme, netloc, b.path, b.params, query, u.fragment⟩
      else
        let baseParts0 := splitOnChar '/' b.path
        let baseParts :=
          if baseParts0.getLastD [] ≠ [] then baseParts0.dropLast else baseParts0
        let segments :=
          if u.path.take 1 = ['/'] then splitOnChar '/' u.path
          else filterMiddle (baseParts ++ splitOnChar '/' u.path)
        let resolved := resolveSegments [] segments
        let resolved :=
          if segments.getLastD [] = ['.', '.'] ∨ segments.getLastD [] = ['.'] then
            resolved ++ [[]]
          else resolved
        let joined := List.intercalate ['/'] resolved
        let path := if joined = [] then ['/'] else joined
        urlunparse ⟨u.scheme, netloc, path, u.params, u.query, u.fragment⟩

/-- `urljoin` at the `String` level, as called by `parser.py`. -/
def urljoin (base url : String) : String :=
  ⟨urljoinCore base.data url.data⟩

/-! ### crawler.py: `_same_domain` and `_normalize` -/

/-- crawler.py lines 12-16: `urlparse(base_url).netloc == urlparse(link).netloc`. -/
def _same_domain (base_url link : String) : Bool :=
  decide ((urlparse [] base_url.data).netloc = (urlparse [] link.data).netloc)

/-- crawler.py lines 19-23 on character lists:
`path = parsed.path.rstrip("/") or "/"`, then
`f"{parsed.scheme}://{parsed.netloc}{path}"`. -/
def normalizeCore (url : List Char) : List Char :=
  let p := urlparse [] url
  let path := if rstripSlashes p.path = [] then ['/'] else rstripSlashes p.path
  p.scheme ++ ':' :: '/' :: '/' :: (p.netloc ++ path)

/-- crawler.py `_normalize` at the `String` level. -/
def _normalize (url : String) : String :=
  ⟨normalizeCore url.data⟩

/-- The host a URL parses to (`urlparse(u).netloc`), used to state
domain-scoping properties. -/
def hostOf (u : String) : String :=
  ⟨(urlparse [] u.data).netloc⟩

example : _normalize "https://a.com" = "https://a.com/" := by decide
example : _normalize "https://a.com/x/" = "https://a.com/x" := by decide
example : _normalize "https://a.com/x" = "https://a.com/x" := by decide
example : _normalize "abc" = "://abc" := by decide
example : _normalize "://abc" = "://://abc" := by decide
example : _normalize "https://a.com/x//" = "https://a.com/x" := by decide
example : _normalize "http://h/a;x/" = "http://h/a;x" := by decide
example : _normalize "http://h/a;x" = "http://h/a" := by decide
example : urljoin "https://a.com/x" "" = "https://a.com/x" := by decide
example : urljoin "https://a.com/x" "img/logo.png" = "https://a.com/img/logo.png" := by decide
example : urljoin "https://a.com/x/" "img/logo.png" = "https://a.com/x/img/logo.png" := by decide
example : urljoin "https://a.com/x" "/abs" = "https://a.com/abs" := by decide
example : urljoin "https://a.com/x" "https://b.com/y" = "https://b.com/y" := by decide
example : urljoin "https://a.com/x" "//b.com/y" = "https://b.com/y" := by decide
example : urljoin "https://a.com/a/b/c" "../d" = "https://a.com/a/d" := by decide
example : _normalize "https://a.com/x?q=1#frag" = "https://a.com/x" := by decide

/-! ### parser.py: the `images` extraction (lines 72-79)

`parse_page` iterates over every `<img>` element of the soup and records
`{"src": urljoin(url, img.get("src", "")), "alt": img.get("alt")}`.
An element is modelled by its attribute list; `attGet` models
BeautifulSoup's `Tag.get`, which returns the attribute value when the
attribute is present (the empty string for `alt=""`) and `None` when it
is absent. -/

/-- One record of `PageData.images`: resolved `src` and raw `alt`. -/
structure ImageData where
  src : String
  alt : Option String
deriving DecidableEq

/-- BeautifulSoup `Tag.get(key)`: the first value bound to `key`, or
`none` when the attribute is absent. -/
def attGet (attrs : List (String × String)) (key : String) : Option String :=
  (attrs.find? (fun p => p.1 == key)).map (fun p => p.2)

/-- parser.py lines 72-79, over the `<img>` elements of the page (each
given by its attribute list):
`{"src": urljoin(url, img.get("src", "")), "alt": img.get("alt")}`. -/
def parse_images (url : String) (imgs : List (List (String × String))) : List ImageData :=
  imgs.map (fun img =>
    { src := urljoin url ((attGet img "src").getD ""), alt := attGet img "alt" })

example : parse_images "https://a.com/x" [[]] = [⟨"https://a.com/x", none⟩] := by decide
example : parse_images "https://a.com/x" [[("alt", "")]] = [⟨"https://a.com/x", some ""⟩] := by decide
example : parse_images "https://a.com/x" [[("alt", "x")]] = [⟨"https://a.com/x", some "x"⟩] := by decide
example : parse_images "https://a.com/x" [[("src", "img/logo.png")]]
    = [⟨"https://a.com/img/logo.png", none⟩] := by decide

/-! ### crawler.py: `crawl_site` (lines 26-69)

The crawl loop is modelled with an explicit fuel argument: `none` means
the given fuel ran out before the `while` loop finished, `some` carries
the final `(results, trace)` pair, where `trace` is the ghost list of
URLs passed to `fetch_page`, in call order.  The loop body is a
line-by-line transcription: pop the queue head, skip already-visited
URLs, mark visited, fetch, silently drop non-200/empty responses, parse
and append, then enqueue normalized same-domain links that are neither
visited nor already queued.  `max_pages` is a `Nat` (the caller-facing
contract requires a positive page cap). -/

/-- The fields of `PageData` that `crawl_site` reads or builds.  The
extractor's other fields (title, meta, headings, forms, images, snippet,
scroll flag) never influence the crawl loop and are not modelled here;
the images field is modelled separately by `parse_images`. -/
structure PageData where
  url : String
  status_code : Nat
  internal_links : List String
deriving DecidableEq

/-- parser.py `parse_page(url, html, status_code)`, restricted to the
fields the crawler consumes: the `url` argument is stored unchanged
(line 92), the status is stored, and `internal_links` is produced by the
link extractor `links` from the page URL and HTML. -/
def parse_page (links : String → String → List String)
    (url html : String) (status_code : Nat) : PageData :=
  { url := url, status_code := status_code, internal_links := links url html }

/-- crawler.py lines 63-67: fold over `page_data.internal_links`,
appending `_normalize(link)` to the queue when it is neither visited nor
already queued and `_same_domain(seed_url, link)` holds. -/
def enqueueLinks (seed : String) (visited : List String)
    (queue : List String) (ls : List String) : List String :=
  ls.foldl (fun q link =>
    if _normalize link ∉ visited ∧ _normalize link ∉ q ∧ _same_domain seed link = true then
      q ++ [_normalize link]
    else q) queue

/-- crawler.py lines 50-68, the `while to_visit and len(results) < limit`
loop, with fuel.  Arguments after the fuel: queue, visited set (as a
list used only for membership), results, ghost fetch trace. -/
def crawl_loop (fetch : String → Nat × String) (links : String → String → List String)
    (seed : String) (limit : Nat) :
    Nat → List String → List String → List PageData → List String →
    Option (List PageData × List String)
  | _, [], _, results, trace => some (results, trace)
  | fuel, url :: rest, visited, results, trace =>
    if results.length < limit then
      match fuel with
      | 0 => none
      | fuel' + 1 =>
        if url ∈ visited then
          crawl_loop fetch links seed limit fuel' rest visited results trace
        else
          let res := fetch url
          if res.1 ≠ 200 ∨ res.2 = "" then
            crawl_loop fetch links seed limit fuel' rest (url :: visited) results
              (trace ++ [url])
          else
            let page := parse_page links url res.2 res.1
            crawl_loop fetch links seed limit fuel'
              (enqueueLinks seed (url :: visited) rest page.internal_links)
              (url :: visited) (results ++ [page]) (trace ++ [url])
    else some (results, trace)

/-- crawler.py `crawl_site(seed_url, max_pages)`: run the loop from the
queue `[_normalize(seed_url)]`, empty visited set, no results. -/
def crawl_site (fetch : String → Nat × String) (links : String → String → List String)
    (seed : String) (limit : Nat) (fuel : Nat) :
    Option (List PageData × List String) :=
  crawl_loop fetch links seed limit fuel [_normalize seed] [] [] []

/-- `fetch_page` succeeded for the crawl loop's purposes: status 200 and
a non-empty body (the negation of the line-57 guard). -/
def fetchOk (fetch : String → Nat × String) (u : String) : Bool :=
  (fetch u).1 == 200 && !((fetch u).2 == "")

/-- The normalized URLs the crawler can reach from the seed: the
normalized seed, plus the normalization of every same-domain link found
on a reachable page's fetched body. -/
inductive Reach (fetch : String → Nat × String) (links : String → String → List String)
    (seed : String) : String → Prop where
  | seed : Reach fetch links seed (_normalize seed)
  | step {u : String} {link : String} : Reach fetch links seed u →
      link ∈ links u (fetch u).2 → _same_domain seed link = true →
      Reach fetch links seed (_normalize link)

/-- Strip trailing `/` characters, written by right recursion (used to
express the spec's description of the normalizer independently of
`rstripSlashes`). -/
def dropTrailing : List Char → List Char
  | [] => []
  | c :: cs =>
    match dropTrailing cs with
    | [] => if c = '/' then [] else [c]
    | r => c :: r

/-- The spec's description of the normalizer (§4.1), with the single
amendment the code forces: ALL trailing slashes are stripped, not
exactly one.  Decompose the URL into scheme, host and path; replace an
empty or slash-only path by `"/"`, otherwise strip the trailing
slashes; output `scheme://host/path`, discarding query and fragment. -/
def normalize_spec (u : String) : String :=
  let p := urlparse [] u.data
  let stripped := dropTrailing p.path
  if stripped = [] then ⟨p.scheme ++ ':' :: '/' :: '/' :: (p.netloc ++ ['/'])⟩
  else ⟨p.scheme ++ ':' :: '/' :: '/' :: (p.netloc ++ stripped)⟩

example :
    crawl_site (fun _ => (200, "x")) (fun _ _ => ["https://a.com/p1", "https://a.com/p2"])
      "https://a.com" 1 5
    = some ([⟨"https://a.com/", 200, ["https://a.com/p1", "https://a.com/p2"]⟩],
        ["https://a.com/"]) := by decide

example :
    crawl_site (fun _ => (200, "x")) (fun _ _ => ["https://a.com"]) "https://a.com" 5 9
    = some ([⟨"https://a.com/", 200, ["https://a.com"]⟩], ["https://a.com/"]) := by decide

example :
    crawl_site (fun u => if u = "https://a.com/bad" then (404, "x") else (200, "x"))
      (fun _ _ => ["https://a.com/bad", "https://a.com/p1"]) "https://a.com" 5 9
    = some ([⟨"https://a.com/", 200, ["https://a.com/bad", "https://a.com/p1"]⟩,
             ⟨"https://a.com/p1", 200, ["https://a.com/bad", "https://a.com/p1"]⟩],
        ["https://a.com/", "https://a.com/bad", "https://a.com/p1"]) := by decide

/-! ### Character toolbox -/

lemma char_toNat_ofNat_valid {n : Nat} (h : n.isValidChar) : (Char.ofNat n).toNat = n := by
  simp [Char.ofNat, h, Char.ofNatAux, Char.toNat, UInt32.toNat]

lemma isUpper_iff {c : Char} : c.isUpper = true ↔ 65 ≤ c.toNat ∧ c.toNat ≤ 90 := by
  simp [Char.isUpper, UInt32.le_def, BitVec.le_def, Char.toNat, UInt32.toNat]

lemma isLower_iff {c : Char} : c.isLower = true ↔ 97 ≤ c.toNat ∧ c.toNat ≤ 122 := by
  simp [Char.isLower, UInt32.le_def, BitVec.le_def, Char.toNat, UInt32.toNat]

lemma isDigit_iff {c : Char} : c.isDigit = true ↔ 48 ≤ c.toNat ∧ c.toNat ≤ 57 := by
  simp [Char.isDigit, UInt32.le_def, BitVec.le_def, Char.toNat, UInt32.toNat]

lemma toLower_of_isUpper {c : Char} (h : c.isUpper = true) :
    (Char.toLower c).toNat = c.toNat + 32 := by
  rw [isUpper_iff] at h
  rw [Char.toLower]
  rw [if_pos (by omega)]
  exact char_toNat_ofNat_valid (Or.inl (by omega))

lemma toLower_of_not_upper {c : Char} (h : ¬ c.isUpper = true) : Char.toLower c = c := by
  rw [isUpper_iff] at h
  rw [Char.toLower, if_neg (by omega)]

lemma toLower_isAlpha {c : Char} (h : c.isAlpha = true) : (Char.toLower c).isAlpha = true := by
  rw [Char.isAlpha, Bool.or_eq_true] at h ⊢
  rcases h with h | h
  · right
    rw [isLower_iff, toLower_of_isUpper h]
    rw [isUpper_iff] at h
    omega
  · right
    have hnu : ¬ c.isUpper = true := by
      rw [isUpper_iff]
      rw [isLower_iff] at h
      omega
    rw [toLower_of_not_upper hnu]
    exact h

lemma toLower_idem (c : Char) : Char.toLower (Char.toLower c) = Char.toLower c := by
  by_cases h : c.isUpper = true
  · have h2 : (Char.toLower c).isUpper = false := by
      rw [Bool.eq_false_iff]
      intro hu
      rw [isUpper_iff, toLower_of_isUpper h] at hu
      rw [isUpper_iff] at h
      omega
    exact toLower_of_not_upper (by simp [h2])
  · rw [toLower_of_not_upper h]
    exact toLower_of_not_upper h

lemma toLower_isSchemeChar {c : Char} (h : isSchemeChar c = true) :
    isSchemeChar (Char.toLower c) = true := by
  rw [isSchemeChar] at h ⊢
  simp only [Bool.or_eq_true, beq_iff_eq] at h ⊢
  rcases h with ((((h | h) | h) | h) | h)
  · exact Or.inl (Or.inl (Or.inl (Or.inl (toLower_isAlpha h))))
  · have hnu : ¬ c.isUpper = true := by
      rw [isUpper_iff]
      rw [isDigit_iff] at h
      omega
    rw [toLower_of_not_upper hnu]
    exact Or.inl (Or.inl (Or.inl (Or.inr h)))
  · subst h
    exact Or.inl (Or.inl (Or.inr (by decide)))
  · subst h
    exact Or.inl (Or.inr (by decide))
  · subst h
    exact Or.inr (by decide)

lemma toLower_ne_colon {c : Char} (h : isSchemeChar c = true) : Char.toLower c ≠ ':' := by
  by_cases hu : c.isUpper = true
  · intro he
    have := congrArg Char.toNat he
    rw [toLower_of_isUpper hu] at this
    rw [isUpper_iff] at hu
    have h58 : (':' : Char).toNat = 58 := by decide
    omega
  · rw [toLower_of_not_upper hu]
    intro he
    subst he
    exact absurd h (by decide)

/-! ### Splitting toolbox -/

lemma splitAtChar_eq_none {sep : Char} {l : List Char} (h : sep ∉ l) :
    splitAtChar sep l = none := by
  induction l with
  | nil => rfl
  | cons c cs ih =>
    rw [splitAtChar]
    rw [if_neg (by intro he; exact h (he ▸ List.mem_cons_self c cs))]
    rw [ih (fun hm => h (List.mem_cons_of_mem c hm))]

lemma splitAtChar_append {sep : Char} {a : List Char} (b : List Char) (h : sep ∉ a) :
    splitAtChar sep (a ++ sep :: b) = some (a, b) := by
  induction a with
  | nil => simp [splitAtChar]
  | cons c cs ih =>
    rw [List.cons_append, splitAtChar]
    rw [if_neg (by intro he; exact h (he ▸ List.mem_cons_self c cs))]
    rw [ih (fun hm => h (List.mem_cons_of_mem c hm))]

lemma splitAtChar_some {sep : Char} {l a b : List Char}
    (h : splitAtChar sep l = some (a, b)) : sep ∉ a ∧ l = a ++ sep :: b := by
  induction l generalizing a b with
  | nil => exact absurd h (by rw [splitAtChar]; exact Option.noConfusion)
  | cons c cs ih =>
    rw [splitAtChar] at h
    by_cases hc : c = sep
    · rw [if_pos hc] at h
      obtain ⟨ha, hb⟩ : ([] : List Char) = a ∧ cs = b := by
        have := Option.some.inj h
        exact ⟨congrArg Prod.fst this, congrArg Prod.snd this⟩
      subst hc
      rw [← ha, ← hb]
      exact ⟨by simp, rfl⟩
    · rw [if_neg hc] at h
      cases hrec : splitAtChar sep cs with
      | none => rw [hrec] at h; exact absurd h (by exact Option.noConfusion)
      | some p =>
        rw [hrec] at h
        have := Option.some.inj h
        have ha : c :: p.1 = a := congrArg Prod.fst this
        have hb : p.2 = b := congrArg Prod.snd this
        obtain ⟨h1, h2⟩ := ih (a := p.1) (b := p.2) (by rw [hrec])
        constructor
        · rw [← ha]
          intro hm
          rcases List.mem_cons.mp hm with he | hm2
          · exact hc he.symm
          · exact h1 hm2
        · rw [← ha, ← hb, List.cons_append, ← h2]

lemma takeWhile_middle {p : Char → Bool} {n : List Char} (x : Char) (r : List Char)
    (hn : ∀ c ∈ n, p c = true) (hx : p x = false) :
    (n ++ x :: r).takeWhile p = n ∧ (n ++ x :: r).dropWhile p = x :: r := by
  induction n with
  | nil => simp [List.takeWhile, List.dropWhile, hx]
  | cons c cs ih =>
    have hc : p c = true := hn c (List.mem_cons_self c cs)
    obtain ⟨h1, h2⟩ := ih (fun d hd => hn d (List.mem_cons_of_mem c hd))
    constructor
    · simp [List.takeWhile_cons, hc, h1]
    · simp [List.dropWhile_cons, hc, h2]

lemma dropWhile_head {p : Char → Bool} : ∀ {l : List Char} {d : Char} {t : List Char},
    l.dropWhile p = d :: t → p d = false
  | [], _, _, h => by exact absurd h (by rw [List.dropWhile_nil]; exact List.noConfusion)
  | c :: cs, d, t, h => by
    rw [List.dropWhile_cons] at h
    by_cases hc : p c = true
    · rw [if_pos hc] at h
      exact dropWhile_head h
    · rw [if_neg hc] at h
      obtain ⟨h1, _⟩ := List.cons.inj h
      rw [← h1]
      exact Bool.eq_false_iff.mpr hc

lemma dropWhile_idem (p : Char → Bool) (l : List Char) :
    (l.dropWhile p).dropWhile p = l.dropWhile p := by
  cases h : l.dropWhile p with
  | nil => rfl
  | cons d t =>
    rw [List.dropWhile_cons, dropWhile_head h]
    simp

lemma rstripSlashes_idem (l : List Char) :
    rstripSlashes (rstripSlashes l) = rstripSlashes l := by
  unfold rstripSlashes
  rw [List.reverse_reverse, dropWhile_idem]

lemma rstripSlashes_decomposition (l : List Char) :
    ∃ t, l = rstripSlashes l ++ t ∧ ∀ c ∈ t, c = '/' := by
  refine ⟨(l.reverse.takeWhile (fun c => c = '/')).reverse, ?_, ?_⟩
  · have h := congrArg List.reverse
      (List.takeWhile_append_dropWhile (p := fun c => decide (c = '/')) (l := l.reverse))
    rw [List.reverse_append, List.reverse_reverse] at h
    exact h.symm
  · intro c hc
    rw [List.mem_reverse] at hc
    have := List.mem_takeWhile_imp hc
    exact of_decide_eq_true this

lemma mem_rstripSlashes {c : Char} {l : List Char} (h : c ∈ rstripSlashes l) : c ∈ l := by
  obtain ⟨t, ht, _⟩ := rstripSlashes_decomposition l
  rw [ht]
  exact List.mem_append_left t h

lemma take_one_append {a : List Char} (r : List Char) (h : a ≠ []) :
    (a ++ r).take 1 = a.take 1 := by
  cases a with
  | nil => exact absurd rfl h
  | cons c cs => simp

lemma rstripSlashes_take_one {l : List Char} (h : rstripSlashes l ≠ []) :
    (rstripSlashes l).take 1 = l.take 1 := by
  obtain ⟨t, ht, _⟩ := rstripSlashes_decomposition l
  conv_rhs => rw [ht]
  rw [take_one_append t h]

lemma rstripSlashes_cons (c : Char) (l : List Char) :
    rstripSlashes (c :: l) =
      if rstripSlashes l = [] then (if c = '/' then [] else [c])
      else c :: rstripSlashes l := by
  unfold rstripSlashes
  rw [List.reverse_cons, List.dropWhile_append]
  by_cases h : (l.reverse.dropWhile (fun c => decide (c = '/'))) = []
  · rw [h]
    by_cases hc : c = '/'
    · subst hc
      simp [List.dropWhile]
    · simp [List.dropWhile, hc]
  · have h1 : (l.reverse.dropWhile (fun c => decide (c = '/'))).isEmpty = false := by
      cases hd : l.reverse.dropWhile (fun c => decide (c = '/')) with
      | nil => exact absurd hd h
      | cons d t => rfl
    rw [h1]
    have h2 : (l.reverse.dropWhile (fun c => decide (c = '/'))).reverse ≠ [] := by
      simpa using h
    rw [if_neg (by exact fun he => absurd he (by simp)), if_neg h2]
    simp

lemma dropTrailing_eq (l : List Char) : dropTrailing l = rstripSlashes l := by
  induction l with
  | nil => rfl
  | cons c cs ih =>
    rw [dropTrailing, ih, rstripSlashes_cons]
    by_cases h : rstripSlashes cs = []
    · rw [h, if_pos rfl]
    · rw [if_neg h]
      cases hr : rstripSlashes cs with
      | nil => exact absurd hr h
      | cons d t => rfl

/-! ### Claim C5: the normalizer's output form -/

/-- C5, counterexample: the claim says `_normalize` strips *exactly
one* trailing slash from a non-slash-only path, which would give
`"https://a.com/x/"` on `"https://a.com/x//"`; the code's
`rstrip("/")` strips them all and yields `"https://a.com/x"`. -/
theorem normalize_one_slash_counterexample :
    _normalize "https://a.com/x//" = "https://a.com/x" ∧
    ("https://a.com/x" : String) ≠ "https://a.com/x/" := by
  constructor
  · decide
  · decide

/-- C5 (amended): `_normalize` returns `scheme://host/path` with query
string and fragment discarded, where an empty or trailing-slash-only
path is replaced by `"/"` and otherwise ALL trailing slashes are
stripped (not exactly one); in particular the claim's three concrete
equations hold. -/
theorem normalize_output_form :
    (∀ u : String, _normalize u = normalize_spec u) ∧
    _normalize "https://a.com/x/" = "https://a.com/x" ∧
    _normalize "https://a.com/x" = "https://a.com/x" ∧
    _normalize "https://a.com" = "https://a.com/" := by
  refine ⟨?_, by decide, by decide, by decide⟩
  intro u
  simp only [_normalize, normalize_spec, normalizeCore, dropTrailing_eq]
  by_cases h : rstripSlashes (urlparse [] u.data).path = []
  · rw [if_pos h, if_pos h]
  · rw [if_neg h, if_neg h]

/-! ### Parser well-formedness: facts about the parts `urlparse` emits -/

lemma splitAtChar_none_not_mem {sep : Char} {l : List Char}
    (h : splitAtChar sep l = none) : sep ∉ l := by
  induction l with
  | nil => simp
  | cons c cs ih =>
    rw [splitAtChar] at h
    by_cases hc : c = sep
    · rw [if_pos hc] at h
      exact absurd h (by exact Option.noConfusion)
    · rw [if_neg hc] at h
      intro hm
      rcases List.mem_cons.mp hm with he | hm2
      · exact hc he.symm
      · cases hr : splitAtChar sep cs with
        | none => exact ih hr hm2
        | some p => rw [hr] at h; exact absurd h (by exact Option.noConfusion)

lemma mem_of_takeWhile {p : Char → Bool} : ∀ {l : List Char} {c : Char},
    c ∈ l.takeWhile p → c ∈ l
  | [], _, h => by simp at h
  | d :: t, c, h => by
    rw [List.takeWhile_cons] at h
    by_cases hd : p d = true
    · rw [if_pos hd] at h
      rcases List.mem_cons.mp h with he | hm
      · exact he ▸ List.mem_cons_self d t
      · exact List.mem_cons_of_mem d (mem_of_takeWhile hm)
    · rw [if_neg hd] at h
      exact absurd h (List.not_mem_nil c)

lemma takeWhile_length_lt {p : Char → Bool} {l : List Char}
    (h : ∃ c ∈ l, p c = false) : (l.takeWhile p).length < l.length := by
  induction l with
  | nil => obtain ⟨c, hc, _⟩ := h; exact absurd hc (List.not_mem_nil c)
  | cons d t ih =>
    rw [List.takeWhile_cons]
    by_cases hd : p d = true
    · rw [if_pos hd]
      obtain ⟨c, hc, hcp⟩ := h
      rcases List.mem_cons.mp hc with he | hm
      · rw [← he] at hd; rw [hd] at hcp; exact absurd hcp (by simp)
      · have := ih ⟨c, hm, hcp⟩
        simp only [List.length_cons]
        omega
    · rw [if_neg hd]
      simp

lemma splitFragment_fst_spec (l : List Char) :
    '#' ∉ (splitFragment l).1 ∧
    ((splitFragment l).1 = l ∨ ∃ b, l = (splitFragment l).1 ++ '#' :: b) := by
  unfold splitFragment
  cases h : splitAtChar '#' l with
  | none => exact ⟨splitAtChar_none_not_mem h, Or.inl rfl⟩
  | some p =>
    obtain ⟨a, b⟩ := p
    obtain ⟨h1, h2⟩ := splitAtChar_some h
    exact ⟨h1, Or.inr ⟨b, h2⟩⟩

lemma splitQuery_fst_spec (l : List Char) :
    '?' ∉ (splitQuery l).1 ∧
    ((splitQuery l).1 = l ∨ ∃ b, l = (splitQuery l).1 ++ '?' :: b) := by
  unfold splitQuery
  cases h : splitAtChar '?' l with
  | none => exact ⟨splitAtChar_none_not_mem h, Or.inl rfl⟩
  | some p =>
    obtain ⟨a, b⟩ := p
    obtain ⟨h1, h2⟩ := splitAtChar_some h
    exact ⟨h1, Or.inr ⟨b, h2⟩⟩

lemma splitQuery_fst_subset {l : List Char} {c : Char} (h : c ∈ (splitQuery l).1) : c ∈ l := by
  obtain ⟨_, h2 | ⟨b, h2⟩⟩ := splitQuery_fst_spec l
  · rw [← h2]; exact h
  · rw [h2]; exact List.mem_append_left _ h

lemma splitFragment_cons_hash (t : List Char) : splitFragment ('#' :: t) = ([], t) := by
  unfold splitFragment
  rw [splitAtChar, if_pos rfl]

lemma splitQuery_cons_q (t : List Char) : splitQuery ('?' :: t) = ([], t) := by
  unfold splitQuery
  rw [splitAtChar, if_pos rfl]

lemma splitFragment_head (d : Char) (t : List Char) (h : ¬ d = '#') :
    ((splitFragment (d :: t)).1).take 1 = [d] := by
  unfold splitFragment
  rw [splitAtChar, if_neg h]
  cases hr : splitAtChar '#' t with
  | none => simp
  | some p => simp

lemma splitQuery_head (d : Char) (t : List Char) (h : ¬ d = '?') :
    ((splitQuery (d :: t)).1).take 1 = [d] := by
  unfold splitQuery
  rw [splitAtChar, if_neg h]
  cases hr : splitAtChar '?' t with
  | none => simp
  | some p => simp

lemma take_one_shape {l : List Char} {d : Char} (h : l.take 1 = [d]) : ∃ t, l = d :: t := by
  cases l with
  | nil => exact absurd h (by simp)
  | cons e t =>
    refine ⟨t, ?_⟩
    simp only [List.take_succ_cons, List.take_zero] at h
    obtain ⟨he, _⟩ := List.cons.inj h
    rw [he]

lemma fragment_query_head {d : Char} (t : List Char) (hd : isNetlocDelim d = true) :
    (splitQuery (splitFragment (d :: t)).1).1 = [] ∨
    (splitQuery (splitFragment (d :: t)).1).1.take 1 = ['/'] := by
  have hd3 : d = '/' ∨ d = '?' ∨ d = '#' := by
    rw [isNetlocDelim] at hd
    simpa [Bool.or_eq_true, beq_iff_eq, or_assoc] using hd
  rcases hd3 with h | h | h
  · subst h
    obtain ⟨x, hx⟩ := take_one_shape (splitFragment_head '/' t (by decide))
    rw [hx]
    exact Or.inr (splitQuery_head '/' x (by decide))
  · subst h
    obtain ⟨x, hx⟩ := take_one_shape (splitFragment_head '?' t (by decide))
    rw [hx, splitQuery_cons_q]
    exact Or.inl rfl
  · subst h
    rw [splitFragment_cons_hash]
    exact Or.inl rfl

lemma map_toLower_idem (s : List Char) :
    (s.map Char.toLower).map Char.toLower = s.map Char.toLower := by
  rw [List.map_map]
  induction s with
  | nil => rfl
  | cons c cs ih =>
    rw [List.map_cons, List.map_cons, ih]
    rw [Function.comp_apply, toLower_idem]

lemma validScheme_map_toLower {s : List Char} (h : validScheme s = true) :
    validScheme (s.map Char.toLower) = true := by
  cases s with
  | nil => exact absurd h (by decide)
  | cons c cs =>
    rw [validScheme, Bool.and_eq_true, List.all_eq_true] at h
    obtain ⟨h1, h2⟩ := h
    rw [List.map_cons, validScheme, Bool.and_eq_true]
    refine ⟨toLower_isAlpha h1, ?_⟩
    rw [← List.map_cons, List.all_eq_true]
    intro x hx
    rw [List.mem_map] at hx
    obtain ⟨y, hy, hxy⟩ := hx
    rw [← hxy]
    exact toLower_isSchemeChar (h2 y hy)

lemma validScheme_no_colon {s : List Char} (h : validScheme s = true) : ':' ∉ s := by
  cases s with
  | nil => simp
  | cons c cs =>
    rw [validScheme, Bool.and_eq_true, List.all_eq_true] at h
    intro hm
    exact absurd (h.2 ':' hm) (by decide)

lemma splitScheme_fst (u : List Char) :
    (splitScheme u).1 = [] ∨
    (validScheme (splitScheme u).1 = true ∧
     (splitScheme u).1.map Char.toLower = (splitScheme u).1) := by
  unfold splitScheme
  cases h : splitAtChar ':' u with
  | none => exact Or.inl rfl
  | some p =>
    dsimp only
    by_cases hv : validScheme p.1 = true
    · rw [if_pos hv]
      exact Or.inr ⟨validScheme_map_toLower hv, map_toLower_idem p.1⟩
    · rw [if_neg hv]
      exact Or.inl rfl

/-- Structural form of `urlsplit` with the empty default scheme:
`if sp.1 = [] then [] else sp.1` collapses to `sp.1`. -/
lemma urlsplit_nil_eq (u : List Char) :
    urlsplit [] u =
      ⟨(splitScheme u).1,
       (splitNetloc (splitScheme u).2).1,
       (splitQuery (splitFragment (splitNetloc (splitScheme u).2).2).1).1, [],
       (splitQuery (splitFragment (splitNetloc (splitScheme u).2).2).1).2,
       (splitFragment (splitNetloc (splitScheme u).2).2).2⟩ := by
  rw [urlsplit]
  by_cases h : (splitScheme u).1 = []
  · simp [h]
  · simp [h]

lemma urlsplit_wf (u : List Char) :
    ((urlsplit [] u).scheme ≠ [] →
      validScheme (urlsplit [] u).scheme = true ∧
      (urlsplit [] u).scheme.map Char.toLower = (urlsplit [] u).scheme) ∧
    (∀ c ∈ (urlsplit [] u).netloc, isNetlocDelim c = false) ∧
    '#' ∉ (urlsplit [] u).path ∧ '?' ∉ (urlsplit [] u).path ∧
    ((urlsplit [] u).netloc ≠ [] →
      (urlsplit [] u).path = [] ∨ (urlsplit [] u).path.take 1 = ['/']) := by
  rw [urlsplit_nil_eq]
  refine ⟨?_, ?_, ?_, ?_, ?_⟩
  · intro hne
    rcases splitScheme_fst u with h | h
    · exact absurd h hne
    · exact h
  · intro c hc
    unfold splitNetloc at hc
    by_cases h2 : (splitScheme u).2.take 2 = ['/', '/']
    · rw [if_pos h2] at hc
      dsimp only at hc
      have h3 := List.mem_takeWhile_imp hc
      simpa using h3
    · rw [if_neg h2] at hc
      exact absurd hc (List.not_mem_nil c)
  · intro hm
    have hsub := splitQuery_fst_subset hm
    exact absurd hsub (splitFragment_fst_spec _).1
  · exact fun hm => absurd hm (splitQuery_fst_spec _).1
  · intro hne
    unfold splitNetloc at hne ⊢
    by_cases h2 : (splitScheme u).2.take 2 = ['/', '/']
    · rw [if_pos h2] at hne ⊢
      dsimp only at hne ⊢
      cases hdw : ((splitScheme u).2.drop 2).dropWhile (fun c => !isNetlocDelim c) with
      | nil =>
        left
        rfl
      | cons d t =>
        have hd : isNetlocDelim d = true := by
          have := dropWhile_head hdw
          simpa using this
        exact fragment_query_head t hd
    · rw [if_neg h2] at hne
      exact absurd rfl hne

lemma splitparams_fst_subset {l : List Char} {c : Char}
    (h : c ∈ (splitparams l).1) : c ∈ l := by
  unfold splitparams at h
  by_cases hs : '/' ∈ l
  · rw [if_pos hs] at h
    dsimp only at h
    cases hr : splitAtChar ';' ((l.reverse.takeWhile (fun c => c ≠ '/')).reverse) with
    | none =>
      rw [hr] at h
      exact h
    | some p =>
      rw [hr] at h
      dsimp only at h
      rcases List.mem_append.mp h with hm | hm
      · exact List.take_subset _ l hm
      · obtain ⟨_, heq⟩ := splitAtChar_some hr
        have hseg : c ∈ (l.reverse.takeWhile (fun c => c ≠ '/')).reverse := by
          rw [heq]
          exact List.mem_append_left _ hm
        rw [List.mem_reverse] at hseg
        have := mem_of_takeWhile hseg
        rw [List.mem_reverse] at this
        exact this
  · rw [if_neg hs] at h
    cases hr : splitAtChar ';' l with
    | none =>
      rw [hr] at h
      exact h
    | some p =>
      rw [hr] at h
      obtain ⟨_, heq⟩ := splitAtChar_some hr
      rw [heq]
      exact List.mem_append_left _ h

lemma splitparams_fst_head {l : List Char} (h : l.take 1 = ['/']) :
    (splitparams l).1.take 1 = ['/'] := by
  obtain ⟨x, hx⟩ := take_one_shape h
  have hs : '/' ∈ l := by rw [hx]; exact List.mem_cons_self '/' x
  unfold splitparams
  rw [if_pos hs]
  dsimp only
  cases hr : splitAtChar ';' ((l.reverse.takeWhile (fun c => c ≠ '/')).reverse) with
  | none => exact h
  | some p =>
    dsimp only
    have hlt : (l.reverse.takeWhile (fun c => c ≠ '/')).length < l.length := by
      have hwit : ∃ c ∈ l.reverse, (fun c => decide (c ≠ '/')) c = false := by
        refine ⟨'/', ?_, by simp⟩
        rw [List.mem_reverse]
        exact hs
      have := takeWhile_length_lt hwit
      simpa using this
    have hklen : 1 ≤ l.length - ((l.reverse.takeWhile (fun c => c ≠ '/')).reverse).length := by
      rw [List.length_reverse]
      omega
    have hfront : (l.take (l.length - ((l.reverse.takeWhile (fun c => c ≠ '/')).reverse).length)) ≠ [] := by
      rw [hx]
      intro he
      have := congrArg List.length he
      rw [List.length_take] at this
      simp only [List.length_nil] at this
      rw [hx] at hklen
      omega
    rw [take_one_append _ hfront]
    have : (l.take (l.length - ((l.reverse.takeWhile (fun c => c ≠ '/')).reverse).length)).take 1 = l.take 1 := by
      rw [List.take_take]
      congr 1
      omega
    rw [this]
    exact h

lemma urlparse_nil_cases (u : List Char) :
    (urlparse [] u = ⟨(urlsplit [] u).scheme, (urlsplit [] u).netloc,
        (urlsplit [] u).path, [], (urlsplit [] u).query, (urlsplit [] u).fragment⟩ ∧
      ((urlsplit [] u).scheme ∈ uses_params → ';' ∉ (urlsplit [] u).path)) ∨
    (urlparse [] u = ⟨(urlsplit [] u).scheme, (urlsplit [] u).netloc,
        (splitparams (urlsplit [] u).path).1, (splitparams (urlsplit [] u).path).2,
        (urlsplit [] u).query, (urlsplit [] u).fragment⟩ ∧ ';' ∈ (urlsplit [] u).path) := by
  rw [urlparse]
  by_cases h : (urlsplit [] u).scheme ∈ uses_params ∧ ';' ∈ (urlsplit [] u).path
  · rw [if_pos h]
    exact Or.inr ⟨rfl, h.2⟩
  · rw [if_neg h]
    left
    refine ⟨rfl, ?_⟩
    intro hin hsemi
    exact h ⟨hin, hsemi⟩

lemma urlparse_wf (u : List Char) :
    ((urlparse [] u).scheme ≠ [] →
      validScheme (urlparse [] u).scheme = true ∧
      (urlparse [] u).scheme.map Char.toLower = (urlparse [] u).scheme) ∧
    (∀ c ∈ (urlparse [] u).netloc, isNetlocDelim c = false) ∧
    '#' ∉ (urlparse [] u).path ∧ '?' ∉ (urlparse [] u).path ∧
    ((urlparse [] u).netloc ≠ [] →
      (urlparse [] u).path = [] ∨ (urlparse [] u).path.take 1 = ['/']) := by
  obtain ⟨hsch, hnet, hhash, hq, hhead⟩ := urlsplit_wf u
  rcases urlparse_nil_cases u with ⟨heq, _⟩ | ⟨heq, hsemi⟩
  · rw [heq]
    exact ⟨hsch, hnet, hhash, hq, hhead⟩
  · rw [heq]
    refine ⟨hsch, hnet, ?_, ?_, ?_⟩
    · exact fun hm => hhash (splitparams_fst_subset hm)
    · exact fun hm => hq (splitparams_fst_subset hm)
    · intro hne
      rcases hhead hne with hp | hp
      · rw [hp] at hsemi
        exact absurd hsemi (List.not_mem_nil ';')
      · exact Or.inr (splitparams_fst_head hp)

/-! ### Re-parsing a normalized URL -/

lemma validScheme_ne_nil {s : List Char} (h : validScheme s = true) : s ≠ [] := by
  intro he
  rw [he] at h
  exact absurd h (by decide)

lemma splitScheme_reconstruct {s : List Char} (rest : List Char)
    (hs : validScheme s = true) (hlow : s.map Char.toLower = s) :
    splitScheme (s ++ ':' :: rest) = (s, rest) := by
  unfold splitScheme
  rw [splitAtChar_append rest (validScheme_no_colon hs)]
  dsimp only
  rw [if_pos hs, hlow]

lemma splitNetloc_reconstruct {n : List Char} {path1 : List Char}
    (hn : ∀ c ∈ n, isNetlocDelim c = false) (hp : path1.take 1 = ['/']) :
    splitNetloc ('/' :: '/' :: (n ++ path1)) = (n, path1) := by
  obtain ⟨x, hx⟩ := take_one_shape hp
  unfold splitNetloc
  rw [if_pos (by simp)]
  have hmid := @takeWhile_middle (fun c => !isNetlocDelim c) n '/' x
    (fun c hc => by simp [hn c hc]) (by decide)
  subst hx
  simp only [List.drop_succ_cons, List.drop_zero]
  rw [hmid.1, hmid.2]

lemma urlparse_reconstruct {s n path1 : List Char}
    (hs : validScheme s = true) (hlow : s.map Char.toLower = s)
    (hn : ∀ c ∈ n, isNetlocDelim c = false)
    (hp : path1.take 1 = ['/'])
    (hsemi : ';' ∉ path1) (hhash : '#' ∉ path1) (hq : '?' ∉ path1) :
    urlparse [] (s ++ ':' :: '/' :: '/' :: (n ++ path1)) = ⟨s, n, path1, [], [], []⟩ := by
  have husplit : urlsplit [] (s ++ ':' :: '/' :: '/' :: (n ++ path1))
      = ⟨s, n, path1, [], [], []⟩ := by
    rw [urlsplit_nil_eq]
    rw [splitScheme_reconstruct ('/' :: '/' :: (n ++ path1)) hs hlow]
    dsimp only
    rw [splitNetloc_reconstruct hn hp]
    dsimp only
    have hfr : splitFragment path1 = (path1, []) := by
      unfold splitFragment
      rw [splitAtChar_eq_none hhash]
    rw [hfr]
    dsimp only
    have hqu : splitQuery path1 = (path1, []) := by
      unfold splitQuery
      rw [splitAtChar_eq_none hq]
    rw [hqu]
  rw [urlparse, husplit]
  rw [if_neg (by intro hc; exact hsemi hc.2)]

/-! ### Claim C6: idempotence of `_normalize` -/

/-- C6, counterexample: the claim asserts idempotence for every URL
string including malformed ones, but on the schemeless input `"abc"`
the code yields `"://abc"`, which re-normalizes to `"://://abc"`. -/
theorem normalize_idempotence_counterexample :
    _normalize (_normalize "abc") ≠ _normalize "abc" := by decide

/-- C6 (amended): `_normalize` is idempotent on every URL that parses
with a nonempty scheme and a nonempty host and whose parsed path
contains no `;` (the cases the counterexamples exclude: schemeless or
hostless inputs, and paths where re-parsing moves a `;params` suffix,
e.g. `"http://h/a;x/"`). -/
theorem normalize_idempotent_wellformed (u : String)
    (hsch : (urlparse [] u.data).scheme ≠ [])
    (hhost : (urlparse [] u.data).netloc ≠ [])
    (hsemi : ';' ∉ (urlparse [] u.data).path) :
    _normalize (_normalize u) = _normalize u := by
  obtain ⟨hwf_s, hwf_n, hwf_hash, hwf_q, hwf_head⟩ := urlparse_wf u.data
  obtain ⟨hvalid, hlow⟩ := hwf_s hsch
  have hcore : normalizeCore u.data =
      (urlparse [] u.data).scheme ++ ':' :: '/' :: '/' ::
        ((urlparse [] u.data).netloc ++
          (if rstripSlashes (urlparse [] u.data).path = [] then ['/']
           else rstripSlashes (urlparse [] u.data).path)) := by
    rw [normalizeCore]
  set p0 := (urlparse [] u.data).path with hp0
  set path1 := (if rstripSlashes p0 = [] then ['/'] else rstripSlashes p0) with hpath1
  have hp1_head : path1.take 1 = ['/'] := by
    rw [hpath1]
    by_cases h : rstripSlashes p0 = []
    · rw [if_pos h]
      rfl
    · rw [if_neg h]
      rw [rstripSlashes_take_one h]
      have hp0ne : p0 ≠ [] := by
        intro he
        rw [he] at h
        exact h rfl
      rcases hwf_head hhost with h2 | h2
      · exact absurd h2 hp0ne
      · exact h2
  have hp1_semi : ';' ∉ path1 := by
    rw [hpath1]
    by_cases h : rstripSlashes p0 = []
    · rw [if_pos h]
      simp
    · rw [if_neg h]
      exact fun hm => hsemi (mem_rstripSlashes hm)
  have hp1_hash : '#' ∉ path1 := by
    rw [hpath1]
    by_cases h : rstripSlashes p0 = []
    · rw [if_pos h]
      simp
    · rw [if_neg h]
      exact fun hm => hwf_hash (mem_rstripSlashes hm)
  have hp1_q : '?' ∉ path1 := by
    rw [hpath1]
    by_cases h : rstripSlashes p0 = []
    · rw [if_pos h]
      simp
    · rw [if_neg h]
      exact fun hm => hwf_q (mem_rstripSlashes hm)
  have hreparse : urlparse [] (normalizeCore u.data) =
      ⟨(urlparse [] u.data).scheme, (urlparse [] u.data).netloc, path1, [], [], []⟩ := by
    rw [hcore]
    exact urlparse_reconstruct hvalid hlow hwf_n hp1_head hp1_semi hp1_hash hp1_q
  have hp2 : (if rstripSlashes path1 = [] then ['/'] else rstripSlashes path1) = path1 := by
    rw [hpath1]
    by_cases h : rstripSlashes p0 = []
    · rw [if_pos h]
      rfl
    · rw [if_neg h]
      rw [rstripSlashes_idem]
      rw [if_neg h]
  show (⟨normalizeCore (_normalize u).data⟩ : String) = ⟨normalizeCore u.data⟩
  apply congrArg String.mk
  show normalizeCore (normalizeCore u.data) = normalizeCore u.data
  conv_lhs => rw [normalizeCore]
  rw [hreparse]
  dsimp only
  rw [hp2, hcore]

/-- C6, witness for the amended theorem at `"https://a.com/x/"`. -/
theorem normalize_idempotent_wellformed_witness :
    _normalize (_normalize "https://a.com/x/") = _normalize "https://a.com/x/" :=
  normalize_idempotent_wellformed "https://a.com/x/" (by decide) (by decide) (by decide)

/-! ### Claims C7 and C8: image extraction -/

lemma urljoin_empty (url : String) : urljoin url "" = url := by
  show (⟨urljoinCore url.data []⟩ : String) = url
  by_cases h : url.data = []
  · rw [urljoinCore, if_pos h]
    exact congrArg String.mk h.symm
  · rw [urljoinCore, if_neg h, if_pos rfl]

/-- C7, counterexample: the claim says `<img alt="">` parses to an
absent alt, but `img.get("alt")` returns the present empty string,
which is distinct from `None`. -/
theorem img_alt_empty_counterexample :
    (parse_images "https://a.com/" [[("alt", "")]]).map (fun i => i.alt) = [some ""] ∧
    (some "" : Option String) ≠ none := by
  constructor
  · decide
  · decide

/-- C7 (amended): the recorded alt is exactly the raw attribute lookup:
an `<img>` with no `alt` parses to `none`, `<img alt="">` parses to the
present empty string `some ""`, and `<img alt="x">` to `some "x"`; the
three are pairwise distinguishable (absent and empty survive as
different values into `PageData.images`). -/
theorem img_alt_distinction :
    (∀ (url : String) (imgs : List (List (String × String))),
      (parse_images url imgs).map (fun i => i.alt) = imgs.map (fun a => attGet a "alt")) ∧
    (parse_images "https://a.com/" [[]]).map (fun i => i.alt) = [none] ∧
    (parse_images "https://a.com/" [[("alt", "")]]).map (fun i => i.alt) = [some ""] ∧
    (parse_images "https://a.com/" [[("alt", "x")]]).map (fun i => i.alt) = [some "x"] ∧
    (none : Option String) ≠ some "" ∧ (none : Option String) ≠ some "x" ∧
    (some "" : Option String) ≠ some "x" := by
  refine ⟨?_, by decide, by decide, by decide, by decide, by decide, by decide⟩
  intro url imgs
  rw [parse_images, List.map_map]
  rfl

/-- C8, counterexample: the claim says a missing `src` is recorded as
the empty string, but `urljoin(url, "")` returns the page URL itself:
on page `"https://a.com/x"` an `<img>` without `src` is recorded with
`src = "https://a.com/x"`, not `""`. -/
theorem img_src_missing_counterexample :
    (parse_images "https://a.com/x" [[]]).map (fun i => i.src) = ["https://a.com/x"] ∧
    ("https://a.com/x" : String) ≠ "" := by
  constructor
  · decide
  · decide

/-- C8 (amended): every `<img>`'s recorded src is the `urljoin`
resolution of its `src` attribute (defaulted to `""`) against the page
URL; when the attribute is missing this resolution returns the page URL
itself, not the empty string.  A present relative src resolves to an
absolute URL, as in the final conjunct. -/
theorem img_src_resolution :
    (∀ (url : String) (imgs : List (List (String × String))),
      (parse_images url imgs).map (fun i => i.src)
        = imgs.map (fun a => urljoin url ((attGet a "src").getD ""))) ∧
    (∀ url : String, urljoin url "" = url) ∧
    (parse_images "https://a.com/x" [[]]).map (fun i => i.src) = ["https://a.com/x"] ∧
    (parse_images "https://a.com/x" [[("src", "img/logo.png")]]).map (fun i => i.src)
      = ["https://a.com/img/logo.png"] := by
  refine ⟨?_, urljoin_empty, by decide, by decide⟩
  intro url imgs
  rw [parse_images, List.map_map]
  rfl

/-! ### Crawl-loop lemmas -/

section CrawlLemmas

variable {fetch : String → Nat × String} {links : String → String → List String}
variable {seed : String} {limit : Nat}

lemma enqueueLinks_sub (visited : List String) :
    ∀ (ls q : List String) {x : String}, x ∈ q → x ∈ enqueueLinks seed visited q ls := by
  intro ls
  induction ls with
  | nil => intro q x hx; exact hx
  | cons a as ih =>
    intro q x hx
    rw [enqueueLinks, List.foldl_cons]
    apply ih
    by_cases hc : _normalize a ∉ visited ∧ _normalize a ∉ q ∧ _same_domain seed a = true
    · rw [if_pos hc]
      exact List.mem_append_left _ hx
    · rw [if_neg hc]
      exact hx

lemma enqueueLinks_mem (visited : List String) :
    ∀ (ls q : List String) {y : String}, y ∈ enqueueLinks seed visited q ls →
      y ∈ q ∨ ∃ l ∈ ls, y = _normalize l ∧ _same_domain seed l = true := by
  intro ls
  induction ls with
  | nil => intro q y hy; exact Or.inl hy
  | cons a as ih =>
    intro q y hy
    rw [enqueueLinks, List.foldl_cons] at hy
    rcases ih _ hy with hm | ⟨l, hl, he, hd⟩
    · by_cases hc : _normalize a ∉ visited ∧ _normalize a ∉ q ∧ _same_domain seed a = true
      · rw [if_pos hc] at hm
        rcases List.mem_append.mp hm with hq | hs
        · exact Or.inl hq
        · right
          refine ⟨a, List.mem_cons_self a as, ?_, hc.2.2⟩
          rcases List.mem_cons.mp hs with he | habs
          · exact he
          · exact absurd habs (List.not_mem_nil y)
      · rw [if_neg hc] at hm
        exact Or.inl hm
    · exact Or.inr ⟨l, List.mem_cons_of_mem a hl, he, hd⟩

lemma enqueueLinks_covers (visited : List String) :
    ∀ (ls q : List String) {l : String}, l ∈ ls → _same_domain seed l = true →
      _normalize l ∈ visited ∨ _normalize l ∈ enqueueLinks seed visited q ls := by
  intro ls
  induction ls with
  | nil => intro q l hl; exact absurd hl (List.not_mem_nil l)
  | cons a as ih =>
    intro q l hl hd
    rw [enqueueLinks, List.foldl_cons]
    rcases List.mem_cons.mp hl with he | hm
    · subst he
      by_cases hc : _normalize l ∉ visited ∧ _normalize l ∉ q ∧ _same_domain seed l = true
      · rw [if_pos hc]
        right
        apply enqueueLinks_sub visited as
        exact List.mem_append_right _ (List.mem_cons_self _ [])
      · push_neg at hc
        by_cases hvis : _normalize l ∈ visited
        · exact Or.inl hvis
        · have hq : _normalize l ∈ q := by
            by_cases hq2 : _normalize l ∈ q
            · exact hq2
            · exact absurd hd (hc hvis hq2)
          right
          rw [if_neg (by push_neg; intro _ h2; exact absurd hq h2)]
          exact enqueueLinks_sub visited as q hq
    · exact ih _ hm hd

/-- One-step case analysis of the crawl loop on a nonempty frontier. -/
lemma crawl_loop_cases {fuel : Nat} {url : String} {rest v : List String}
    {r : List PageData} {t : List String} {out : List PageData × List String}
    (h : crawl_loop fetch links seed limit fuel (url :: rest) v r t = some out) :
    (¬ r.length < limit ∧ out = (r, t)) ∨
    (r.length < limit ∧ ∃ fuel', fuel = fuel' + 1 ∧
      ((url ∈ v ∧ crawl_loop fetch links seed limit fuel' rest v r t = some out) ∨
       (url ∉ v ∧ ((fetch url).1 ≠ 200 ∨ (fetch url).2 = "") ∧
         crawl_loop fetch links seed limit fuel' rest (url :: v) r (t ++ [url]) = some out) ∨
       (url ∉ v ∧ ¬((fetch url).1 ≠ 200 ∨ (fetch url).2 = "") ∧
         crawl_loop fetch links seed limit fuel'
           (enqueueLinks seed (url :: v) rest (links url (fetch url).2))
           (url :: v) (r ++ [parse_page links url (fetch url).2 (fetch url).1]) (t ++ [url])
           = some out))) := by
  cases fuel with
  | zero =>
    rw [crawl_loop.eq_def] at h
    dsimp only at h
    by_cases hg : r.length < limit
    · rw [if_pos hg] at h
      exact absurd h (by exact Option.noConfusion)
    · rw [if_neg hg] at h
      exact Or.inl ⟨hg, (Option.some.inj h).symm⟩
  | succ n =>
    rw [crawl_loop.eq_def] at h
    dsimp only at h
    by_cases hg : r.length < limit
    · rw [if_pos hg] at h
      right
      refine ⟨hg, n, rfl, ?_⟩
      by_cases hv : url ∈ v
      · rw [if_pos hv] at h
        exact Or.inl ⟨hv, h⟩
      · rw [if_neg hv] at h
        by_cases hf : (fetch url).1 ≠ 200 ∨ (fetch url).2 = ""
        · rw [if_pos hf] at h
          exact Or.inr (Or.inl ⟨hv, hf, h⟩)
        · rw [if_neg hf] at h
          exact Or.inr (Or.inr ⟨hv, hf, h⟩)
    · rw [if_neg hg] at h
      exact Or.inl ⟨hg, (Option.some.inj h).symm⟩

lemma crawl_loop_nil {fuel : Nat} {v : List String} {r : List PageData} {t : List String} :
    crawl_loop fetch links seed limit fuel [] v r t = some (r, t) := by
  cases fuel with
  | zero => rfl
  | succ n => rfl

lemma fetchOk_false {u : String} (h : (fetch u).1 ≠ 200 ∨ (fetch u).2 = "") :
    fetchOk fetch u = false := by
  rw [fetchOk]
  rcases h with h | h
  · simp [h]
  · simp [h]

lemma fetchOk_true {u : String} (h : ¬((fetch u).1 ≠ 200 ∨ (fetch u).2 = "")) :
    fetchOk fetch u = true := by
  push_neg at h
  rw [fetchOk]
  simp [h.1, h.2]

lemma crawl_loop_trace_mono : ∀ {fuel : Nat} {tv v : List String} {r : List PageData}
    {t : List String} {r' : List PageData} {t' : List String},
    crawl_loop fetch links seed limit fuel tv v r t = some (r', t') →
    ∃ t0, t' = t ++ t0 := by
  intro fuel
  induction fuel with
  | zero =>
    intro tv v r t r' t' h
    cases tv with
    | nil =>
      obtain ⟨h1, h2⟩ := Prod.mk.inj (Option.some.inj (crawl_loop_nil.symm.trans h))
      exact ⟨[], by rw [← h2]; simp⟩
    | cons url rest =>
      rcases crawl_loop_cases h with ⟨_, hout⟩ | ⟨_, fuel', hfuel, _⟩
      · obtain ⟨h1, h2⟩ := Prod.mk.inj hout
        exact ⟨[], by rw [h2]; simp⟩
      · exact absurd hfuel (by omega)
  | succ n ih =>
    intro tv v r t r' t' h
    cases tv with
    | nil =>
      obtain ⟨h1, h2⟩ := Prod.mk.inj (Option.some.inj (crawl_loop_nil.symm.trans h))
      exact ⟨[], by rw [← h2]; simp⟩
    | cons url rest =>
      rcases crawl_loop_cases h with ⟨_, hout⟩ | ⟨_, fuel', hfuel, hbr⟩
      · obtain ⟨h1, h2⟩ := Prod.mk.inj hout
        exact ⟨[], by rw [h2]; simp⟩
      · have hn : n = fuel' := Nat.succ.inj hfuel
        subst hn
        rcases hbr with ⟨_, hrec⟩ | ⟨_, _, hrec⟩ | ⟨_, _, hrec⟩
        · exact ih hrec
        · obtain ⟨t0, ht0⟩ := ih hrec
          exact ⟨url :: t0, by rw [ht0]; simp⟩
        · obtain ⟨t0, ht0⟩ := ih hrec
          exact ⟨url :: t0, by rw [ht0]; simp⟩

lemma crawl_loop_nil_inj {fuel : Nat} {v : List String} {r r' : List PageData}
    {t t' : List String}
    (h : crawl_loop fetch links seed limit fuel [] v r t = some (r', t')) :
    r' = r ∧ t' = t := by
  obtain ⟨h1, h2⟩ := Prod.mk.inj (Option.some.inj (crawl_loop_nil.symm.trans h))
  exact ⟨h1.symm, h2.symm⟩

lemma crawl_loop_length_le : ∀ {fuel : Nat} {tv v : List String} {r : List PageData}
    {t : List String} {r' : List PageData} {t' : List String},
    crawl_loop fetch links seed limit fuel tv v r t = some (r', t') →
    r.length ≤ limit → r'.length ≤ limit := by
  intro fuel
  induction fuel with
  | zero =>
    intro tv v r t r' t' h hle
    cases tv with
    | nil => rw [(crawl_loop_nil_inj h).1]; exact hle
    | cons url rest =>
      rcases crawl_loop_cases h with ⟨_, hout⟩ | ⟨_, fuel', hfuel, _⟩
      · rw [(Prod.mk.inj hout).1]; exact hle
      · exact absurd hfuel (by omega)
  | succ n ih =>
    intro tv v r t r' t' h hle
    cases tv with
    | nil => rw [(crawl_loop_nil_inj h).1]; exact hle
    | cons url rest =>
      rcases crawl_loop_cases h with ⟨_, hout⟩ | ⟨hg, fuel', hfuel, hbr⟩
      · rw [(Prod.mk.inj hout).1]; exact hle
      · have hn : n = fuel' := Nat.succ.inj hfuel
        subst hn
        rcases hbr with ⟨_, hrec⟩ | ⟨_, _, hrec⟩ | ⟨_, _, hrec⟩
        · exact ih hrec hle
        · exact ih hrec hle
        · refine ih hrec ?_
          rw [List.length_append, List.length_cons, List.length_nil]
          omega

lemma crawl_loop_trace_nodup : ∀ {fuel : Nat} {tv v : List String} {r : List PageData}
    {t : List String} {r' : List PageData} {t' : List String},
    crawl_loop fetch links seed limit fuel tv v r t = some (r', t') →
    t.Nodup → (∀ x ∈ t, x ∈ v) → t'.Nodup := by
  intro fuel
  induction fuel with
  | zero =>
    intro tv v r t r' t' h hnd hsub
    cases tv with
    | nil => rw [(crawl_loop_nil_inj h).2]; exact hnd
    | cons url rest =>
      rcases crawl_loop_cases h with ⟨_, hout⟩ | ⟨_, fuel', hfuel, _⟩
      · rw [(Prod.mk.inj hout).2]; exact hnd
      · exact absurd hfuel (by omega)
  | succ n ih =>
    intro tv v r t r' t' h hnd hsub
    cases tv with
    | nil => rw [(crawl_loop_nil_inj h).2]; exact hnd
    | cons url rest =>
      rcases crawl_loop_cases h with ⟨_, hout⟩ | ⟨hg, fuel', hfuel, hbr⟩
      · rw [(Prod.mk.inj hout).2]; exact hnd
      · have hn : n = fuel' := Nat.succ.inj hfuel
        subst hn
        have hstep : ∀ {v2 : List String}, url ∉ v2 → (∀ x ∈ t, x ∈ v2) →
            (t ++ [url]).Nodup ∧ ∀ x ∈ t ++ [url], x ∈ url :: v2 := by
          intro v2 hv hsub2
          constructor
          · rw [List.nodup_append]
            refine ⟨hnd, List.nodup_singleton url, ?_⟩
            intro a ha hb
            rw [List.mem_singleton] at hb
            subst hb
            exact hv (hsub2 a ha)
          · intro x hx
            rcases List.mem_append.mp hx with hx | hx
            · exact List.mem_cons_of_mem url (hsub2 x hx)
            · rw [List.mem_singleton] at hx
              subst hx
              exact List.mem_cons_self x _
        rcases hbr with ⟨hv, hrec⟩ | ⟨hv, _, hrec⟩ | ⟨hv, _, hrec⟩
        · exact ih hrec hnd hsub
        · obtain ⟨h1, h2⟩ := hstep hv hsub
          exact ih hrec h1 h2
        · obtain ⟨h1, h2⟩ := hstep hv hsub
          exact ih hrec h1 h2

lemma crawl_loop_results_eq : ∀ {fuel : Nat} {tv v : List String} {r : List PageData}
    {t : List String} {r' : List PageData} {t' : List String},
    crawl_loop fetch links seed limit fuel tv v r t = some (r', t') →
    r.map (fun p => p.url) = t.filter (fetchOk fetch) →
    r'.map (fun p => p.url) = t'.filter (fetchOk fetch) := by
  intro fuel
  induction fuel with
  | zero =>
    intro tv v r t r' t' h heq
    cases tv with
    | nil =>
      obtain ⟨h1, h2⟩ := crawl_loop_nil_inj h
      rw [h1, h2]
      exact heq
    | cons url rest =>
      rcases crawl_loop_cases h with ⟨_, hout⟩ | ⟨_, fuel', hfuel, _⟩
      · rw [(Prod.mk.inj hout).1, (Prod.mk.inj hout).2]
        exact heq
      · exact absurd hfuel (by omega)
  | succ n ih =>
    intro tv v r t r' t' h heq
    cases tv with
    | nil =>
      obtain ⟨h1, h2⟩ := crawl_loop_nil_inj h
      rw [h1, h2]
      exact heq
    | cons url rest =>
      rcases crawl_loop_cases h with ⟨_, hout⟩ | ⟨hg, fuel', hfuel, hbr⟩
      · rw [(Prod.mk.inj hout).1, (Prod.mk.inj hout).2]
        exact heq
      · have hn : n = fuel' := Nat.succ.inj hfuel
        subst hn
        rcases hbr with ⟨hv, hrec⟩ | ⟨hv, hf, hrec⟩ | ⟨hv, hf, hrec⟩
        · exact ih hrec heq
        · refine ih hrec ?_
          rw [List.filter_append, heq]
          have : List.filter (fetchOk fetch) [url] = [] := by
            rw [List.filter_singleton, fetchOk_false hf]
            rfl
          rw [this, List.append_nil]
        · refine ih hrec ?_
          rw [List.filter_append, List.map_append, heq]
          have : List.filter (fetchOk fetch) [url] = [url] := by
            rw [List.filter_singleton, fetchOk_true hf]
            rfl
          rw [this]
          rfl

lemma crawl_loop_results_ok : ∀ {fuel : Nat} {tv v : List String} {r : List PageData}
    {t : List String} {r' : List PageData} {t' : List String},
    crawl_loop fetch links seed limit fuel tv v r t = some (r', t') →
    (∀ p ∈ r, (fetch p.url).1 = 200 ∧ (fetch p.url).2 ≠ "") →
    ∀ p ∈ r', (fetch p.url).1 = 200 ∧ (fetch p.url).2 ≠ "" := by
  intro fuel
  induction fuel with
  | zero =>
    intro tv v r t r' t' h hok
    cases tv with
    | nil => rw [(crawl_loop_nil_inj h).1]; exact hok
    | cons url rest =>
      rcases crawl_loop_cases h with ⟨_, hout⟩ | ⟨_, fuel', hfuel, _⟩
      · rw [(Prod.mk.inj hout).1]; exact hok
      · exact absurd hfuel (by omega)
  | succ n ih =>
    intro tv v r t r' t' h hok
    cases tv with
    | nil => rw [(crawl_loop_nil_inj h).1]; exact hok
    | cons url rest =>
      rcases crawl_loop_cases h with ⟨_, hout⟩ | ⟨hg, fuel', hfuel, hbr⟩
      · rw [(Prod.mk.inj hout).1]; exact hok
      · have hn : n = fuel' := Nat.succ.inj hfuel
        subst hn
        rcases hbr with ⟨hv, hrec⟩ | ⟨hv, hf, hrec⟩ | ⟨hv, hf, hrec⟩
        · exact ih hrec hok
        · exact ih hrec hok
        · refine ih hrec ?_
          intro p hp
          rcases List.mem_append.mp hp with hp | hp
          · exact hok p hp
          · rw [List.mem_singleton] at hp
            subst hp
            push_neg at hf
            exact ⟨hf.1, hf.2⟩

lemma crawl_loop_trace_pred (P : String → Prop)
    (hP : ∀ url html l, l ∈ links url html → _same_domain seed l = true → P (_normalize l)) :
    ∀ {fuel : Nat} {tv v : List String} {r : List PageData}
      {t : List String} {r' : List PageData} {t' : List String},
      crawl_loop fetch links seed limit fuel tv v r t = some (r', t') →
      (∀ x ∈ tv, P x) → (∀ x ∈ t, P x) → ∀ x ∈ t', P x := by
  intro fuel
  induction fuel with
  | zero =>
    intro tv v r t r' t' h htv ht
    cases tv with
    | nil => rw [(crawl_loop_nil_inj h).2]; exact ht
    | cons url rest =>
      rcases crawl_loop_cases h with ⟨_, hout⟩ | ⟨_, fuel', hfuel, _⟩
      · rw [(Prod.mk.inj hout).2]; exact ht
      · exact absurd hfuel (by omega)
  | succ n ih =>
    intro tv v r t r' t' h htv ht
    cases tv with
    | nil => rw [(crawl_loop_nil_inj h).2]; exact ht
    | cons url rest =>
      rcases crawl_loop_cases h with ⟨_, hout⟩ | ⟨hg, fuel', hfuel, hbr⟩
      · rw [(Prod.mk.inj hout).2]; exact ht
      · have hn : n = fuel' := Nat.succ.inj hfuel
        subst hn
        have hrest : ∀ x ∈ rest, P x := fun x hx => htv x (List.mem_cons_of_mem url hx)
        have hturl : ∀ x ∈ t ++ [url], P x := by
          intro x hx
          rcases List.mem_append.mp hx with hx | hx
          · exact ht x hx
          · rw [List.mem_singleton] at hx
            subst hx
            exact htv x (List.mem_cons_self x rest)
        rcases hbr with ⟨hv, hrec⟩ | ⟨hv, hf, hrec⟩ | ⟨hv, hf, hrec⟩
        · exact ih hrec hrest ht
        · exact ih hrec hrest hturl
        · refine ih hrec ?_ hturl
          intro x hx
          rcases enqueueLinks_mem (url :: v) _ _ hx with hx | ⟨l, hl, he, hd⟩
          · exact hrest x hx
          · subst he
            exact hP url (fetch url).2 l hl hd

lemma crawl_loop_queue_processed : ∀ {fuel : Nat} {tv v : List String} {r : List PageData}
    {t : List String} {r' : List PageData} {t' : List String},
    crawl_loop fetch links seed limit fuel tv v r t = some (r', t') →
    r'.length < limit → ∀ x ∈ tv, x ∈ v ∨ x ∈ t' := by
  intro fuel
  induction fuel with
  | zero =>
    intro tv v r t r' t' h hlt
    cases tv with
    | nil => intro x hx; exact absurd hx (List.not_mem_nil x)
    | cons url rest =>
      rcases crawl_loop_cases h with ⟨hg, hout⟩ | ⟨_, fuel', hfuel, _⟩
      · rw [(Prod.mk.inj hout).1] at hlt
        exact absurd hlt hg
      · exact absurd hfuel (by omega)
  | succ n ih =>
    intro tv v r t r' t' h hlt
    cases tv with
    | nil => intro x hx; exact absurd hx (List.not_mem_nil x)
    | cons url rest =>
      rcases crawl_loop_cases h with ⟨hg, hout⟩ | ⟨hg, fuel', hfuel, hbr⟩
      · rw [(Prod.mk.inj hout).1] at hlt
        exact absurd hlt hg
      · have hn : n = fuel' := Nat.succ.inj hfuel
        subst hn
        rcases hbr with ⟨hv, hrec⟩ | ⟨hv, hf, hrec⟩ | ⟨hv, hf, hrec⟩
        · intro x hx
          rcases List.mem_cons.mp hx with he | hx
          · subst he
            exact Or.inl hv
          · exact ih hrec hlt x hx
        · have hurl : url ∈ t' := by
            obtain ⟨t0, ht0⟩ := crawl_loop_trace_mono hrec
            rw [ht0]
            exact List.mem_append_left _ (List.mem_append_right _ (List.mem_cons_self url []))
          intro x hx
          rcases List.mem_cons.mp hx with he | hx
          · subst he
            exact Or.inr hurl
          · rcases ih hrec hlt x hx with hxv | hxt
            · rcases List.mem_cons.mp hxv with he | hxv
              · subst he
                exact Or.inr hurl
              · exact Or.inl hxv
            · exact Or.inr hxt
        · have hurl : url ∈ t' := by
            obtain ⟨t0, ht0⟩ := crawl_loop_trace_mono hrec
            rw [ht0]
            exact List.mem_append_left _ (List.mem_append_right _ (List.mem_cons_self url []))
          intro x hx
          rcases List.mem_cons.mp hx with he | hx
          · subst he
            exact Or.inr hurl
          · have hx2 : x ∈ enqueueLinks seed (url :: v) rest (links url (fetch url).2) :=
              enqueueLinks_sub (url :: v) _ _ hx
            rcases ih hrec hlt x hx2 with hxv | hxt
            · rcases List.mem_cons.mp hxv with he | hxv
              · subst he
                exact Or.inr hurl
              · exact Or.inl hxv
            · exact Or.inr hxt

lemma crawl_loop_closure
    (hsucc : ∀ u2 : String, (fetch u2).1 = 200 ∧ (fetch u2).2 ≠ "") :
    ∀ {fuel : Nat} {tv v : List String} {r : List PageData}
      {t : List String} {r' : List PageData} {t' : List String},
      crawl_loop fetch links seed limit fuel tv v r t = some (r', t') →
      r'.length < limit →
      (∀ x, x ∈ v ↔ x ∈ t) →
      (∀ x ∈ v, ∀ l ∈ links x (fetch x).2, _same_domain seed l = true →
        _normalize l ∈ v ∨ _normalize l ∈ tv) →
      ∀ x ∈ t', ∀ l ∈ links x (fetch x).2, _same_domain seed l = true → _normalize l ∈ t' := by
  intro fuel
  induction fuel with
  | zero =>
    intro tv v r t r' t' h hlt hv hinv
    cases tv with
    | nil =>
      obtain ⟨h1, h2⟩ := crawl_loop_nil_inj h
      subst h1
      subst h2
      intro x hx l hl hd
      rcases hinv x ((hv x).mpr hx) l hl hd with hm | hm
      · exact (hv _).mp hm
      · exact absurd hm (List.not_mem_nil _)
    | cons url rest =>
      rcases crawl_loop_cases h with ⟨hg, hout⟩ | ⟨_, fuel', hfuel, _⟩
      · rw [(Prod.mk.inj hout).1] at hlt
        exact absurd hlt hg
      · exact absurd hfuel (by omega)
  | succ n ih =>
    intro tv v r t r' t' h hlt hv hinv
    cases tv with
    | nil =>
      obtain ⟨h1, h2⟩ := crawl_loop_nil_inj h
      subst h1
      subst h2
      intro x hx l hl hd
      rcases hinv x ((hv x).mpr hx) l hl hd with hm | hm
      · exact (hv _).mp hm
      · exact absurd hm (List.not_mem_nil _)
    | cons url rest =>
      rcases crawl_loop_cases h with ⟨hg, hout⟩ | ⟨hg, fuel', hfuel, hbr⟩
      · rw [(Prod.mk.inj hout).1] at hlt
        exact absurd hlt hg
      · have hn : n = fuel' := Nat.succ.inj hfuel
        subst hn
        rcases hbr with ⟨hvm, hrec⟩ | ⟨hvm, hf, hrec⟩ | ⟨hvm, hf, hrec⟩
        · refine ih hrec hlt hv ?_
          intro x hx l hl hd
          rcases hinv x hx l hl hd with hm | hm
          · exact Or.inl hm
          · rcases List.mem_cons.mp hm with he | hm
            · rw [he]
              exact Or.inl hvm
            · exact Or.inr hm
        · rcases hf with hf | hf
          · exact absurd (hsucc url).1 hf
          · exact absurd hf (hsucc url).2
        · refine ih hrec hlt ?_ ?_
          · intro x
            constructor
            · intro hx
              rcases List.mem_cons.mp hx with he | hx
              · subst he
                exact List.mem_append_right _ (List.mem_cons_self x [])
              · exact List.mem_append_left _ ((hv x).mp hx)
            · intro hx
              rcases List.mem_append.mp hx with hx | hx
              · exact List.mem_cons_of_mem url ((hv x).mpr hx)
              · rw [List.mem_singleton] at hx
                subst hx
                exact List.mem_cons_self x _
          · intro x hx l hl hd
            rcases List.mem_cons.mp hx with he | hx
            · subst he
              exact enqueueLinks_covers (x :: v) _ rest hl hd
            · rcases hinv x hx l hl hd with hm | hm
              · exact Or.inl (List.mem_cons_of_mem url hm)
              · rcases List.mem_cons.mp hm with he | hm
                · rw [he]
                  exact Or.inl (List.mem_cons_self url v)
                · exact Or.inr (enqueueLinks_sub (url :: v) _ _ hm)

lemma crawl_loop_terminates :
    ∀ (k : Nat) (tv v : List String) (r : List PageData) (t : List String),
      limit - r.length ≤ k →
      ∃ fuel out, crawl_loop fetch links seed limit fuel tv v r t = some out := by
  intro k
  induction k with
  | zero =>
    intro tv v r t hk
    cases tv with
    | nil => exact ⟨0, (r, t), crawl_loop_nil⟩
    | cons url rest =>
      refine ⟨0, (r, t), ?_⟩
      rw [crawl_loop.eq_def]
      dsimp only
      rw [if_neg (by omega)]
  | succ k ih =>
    intro tv v r t hk
    induction tv generalizing v t with
    | nil => exact ⟨0, (r, t), crawl_loop_nil⟩
    | cons url rest ihtv =>
      by_cases hg : r.length < limit
      · by_cases hv : url ∈ v
        · obtain ⟨fuel0, out, hout⟩ := ihtv v t
          refine ⟨fuel0 + 1, out, ?_⟩
          rw [crawl_loop.eq_def]
          dsimp only
          rw [if_pos hg, if_pos hv]
          exact hout
        · by_cases hf : (fetch url).1 ≠ 200 ∨ (fetch url).2 = ""
          · obtain ⟨fuel0, out, hout⟩ := ihtv (url :: v) (t ++ [url])
            refine ⟨fuel0 + 1, out, ?_⟩
            rw [crawl_loop.eq_def]
            dsimp only
            rw [if_pos hg, if_neg hv, if_pos hf]
            exact hout
          · obtain ⟨fuel0, out, hout⟩ := ih
              (enqueueLinks seed (url :: v) rest (links url (fetch url).2)) (url :: v)
              (r ++ [parse_page links url (fetch url).2 (fetch url).1]) (t ++ [url])
              (by rw [List.length_append, List.length_cons, List.length_nil]; omega)
            refine ⟨fuel0 + 1, out, ?_⟩
            rw [crawl_loop.eq_def]
            dsimp only
            rw [if_pos hg, if_neg hv, if_neg hf]
            exact hout
      · refine ⟨0, (r, t), ?_⟩
        rw [crawl_loop.eq_def]
        dsimp only
        rw [if_neg hg]

end CrawlLemmas

/-! ### Claim C1: page cap and breadth-first collection -/

/-- C1: `crawl_site(seed, N)` returns at most `N` `PageData` records;
and for positive `N`, when every fetch returns status 200 with a
non-empty body and more than `N` distinct normalized URLs are reachable
from the seed (witnessed by a finite set `S` of reachable URLs with
`N < |S|`), it returns exactly `N` records; the result URLs are exactly
the fetch trace in FIFO dequeue order, which starts at the normalized
seed. -/
theorem crawl_page_cap (fetch : String → Nat × String) (links : String → String → List String)
    (seed : String) (N : Nat) :
    (∀ (fuel : Nat) (r : List PageData) (t : List String),
      crawl_site fetch links seed N fuel = some (r, t) → r.length ≤ N) ∧
    (0 < N → (∀ u, (fetch u).1 = 200 ∧ (fetch u).2 ≠ "") →
      ∀ S : Finset String, (∀ u ∈ S, Reach fetch links seed u) → N < S.card →
      ∀ (fuel : Nat) (r : List PageData) (t : List String),
        crawl_site fetch links seed N fuel = some (r, t) →
        r.length = N ∧ r.map (fun p => p.url) = t ∧ t.take 1 = [_normalize seed]) := by
  constructor
  · intro fuel r t h
    exact crawl_loop_length_le h (Nat.zero_le N)
  · intro hN hsucc S hS hcard fuel r t h
    have hmaps : r.map (fun p => p.url) = t.filter (fetchOk fetch) :=
      crawl_loop_results_eq h rfl
    have hfilter : t.filter (fetchOk fetch) = t := by
      rw [List.filter_eq_self]
      intro a _
      exact fetchOk_true (by push_neg; exact hsucc a)
    have hlen_le : r.length ≤ N := crawl_loop_length_le h (Nat.zero_le N)
    by_cases hlt : r.length < N
    · exfalso
      have hclo := crawl_loop_closure hsucc h hlt (fun x => Iff.rfl)
        (fun x hx => absurd hx (List.not_mem_nil x))
      have hreach : ∀ x, Reach fetch links seed x → x ∈ t := by
        intro x hx
        induction hx with
        | seed =>
          rcases crawl_loop_queue_processed h hlt (_normalize seed)
              (List.mem_cons_self _ []) with hm | hm
          · exact absurd hm (List.not_mem_nil _)
          · exact hm
        | step hu hl hd ihx => exact hclo _ ihx _ hl hd
      have hScard : S.card ≤ t.length := by
        have hsub : S ⊆ t.toFinset := by
          intro x hx
          rw [List.mem_toFinset]
          exact hreach x (hS x hx)
        calc S.card ≤ t.toFinset.card := Finset.card_le_card hsub
          _ ≤ t.length := t.toFinset_card_le
      have hrlen : r.length = t.length := by
        have h2 := congrArg List.length hmaps
        rw [List.length_map, hfilter] at h2
        exact h2
      omega
    · refine ⟨by omega, by rw [hmaps, hfilter], ?_⟩
      cases fuel with
      | zero =>
        rcases crawl_loop_cases h with ⟨hg, _⟩ | ⟨_, fuel', hfuel, _⟩
        · exact absurd hN hg
        · exact absurd hfuel (by omega)
      | succ n =>
        rcases crawl_loop_cases h with ⟨hg, _⟩ | ⟨_, fuel', hfuel, hbr⟩
        · exact absurd hN hg
        · rcases hbr with ⟨hv, _⟩ | ⟨hv, hf, _⟩ | ⟨hv, hf, hrec⟩
          · exact absurd hv (List.not_mem_nil _)
          · rcases hf with hf | hf
            · exact absurd (hsucc _).1 hf
            · exact absurd hf (hsucc _).2
          · obtain ⟨t0, ht0⟩ := crawl_loop_trace_mono hrec
            rw [ht0]
            simp

/-- C1, witness: crawling a two-page fully-successful site with
`max_pages = 1` yields exactly one record, in fetch order from the
normalized seed. -/
theorem crawl_page_cap_witness :
    ([⟨"https://a.com/", 200, ["https://a.com/p1", "https://a.com/p2"]⟩] : List PageData).length = 1 ∧
    ([⟨"https://a.com/", 200, ["https://a.com/p1", "https://a.com/p2"]⟩] : List PageData).map
      (fun p => p.url) = ["https://a.com/"] ∧
    (["https://a.com/"] : List String).take 1 = [_normalize "https://a.com"] :=
  (crawl_page_cap (fun _ => (200, "x")) (fun _ _ => ["https://a.com/p1", "https://a.com/p2"])
      "https://a.com" 1).2
    (by decide)
    (fun u => ⟨rfl, by decide⟩)
    {"https://a.com/", "https://a.com/p1"}
    (by
      intro u hu
      have hseed : _normalize "https://a.com" = "https://a.com/" := by decide
      have hp1 : _normalize "https://a.com/p1" = "https://a.com/p1" := by decide
      rcases Finset.mem_insert.mp hu with he | hu2
      · subst he
        exact hseed ▸ Reach.seed
      · rw [Finset.mem_singleton] at hu2
        subst hu2
        refine hp1 ▸ Reach.step (hseed ▸ Reach.seed) ?_ ?_
        · exact List.mem_cons_self "https://a.com/p1" ["https://a.com/p2"]
        · decide)
    (by decide)
    5 [⟨"https://a.com/", 200, ["https://a.com/p1", "https://a.com/p2"]⟩] ["https://a.com/"]
    (by decide)

/-! ### Claim C2: no URL is fetched twice -/

/-- C2: within one `crawl_site` invocation the fetch trace has no
duplicates — no normalized URL is ever passed to `fetch_page` twice —
and in particular the normalized seed is fetched at most once, so a
site in which every page links back to the seed never re-fetches it. -/
theorem crawl_no_refetch (fetch : String → Nat × String) (links : String → String → List String)
    (seed : String) (N fuel : Nat) (r : List PageData) (t : List String)
    (h : crawl_site fetch links seed N fuel = some (r, t)) :
    t.Nodup ∧ t.count (_normalize seed) ≤ 1 := by
  have hnd : t.Nodup :=
    crawl_loop_trace_nodup h List.nodup_nil (fun x hx => absurd hx (List.not_mem_nil x))
  exact ⟨hnd, List.nodup_iff_count_le_one.mp hnd (_normalize seed)⟩

/-- C2, witness: on a site where the only page links back to the seed,
the trace is the single normalized seed URL — fetched exactly once. -/
theorem crawl_no_refetch_witness :
    (["https://a.com/"] : List String).Nodup ∧
    (["https://a.com/"] : List String).count (_normalize "https://a.com") ≤ 1 :=
  crawl_no_refetch (fun _ => (200, "x")) (fun _ _ => ["https://a.com"]) "https://a.com" 5 9
    [⟨"https://a.com/", 200, ["https://a.com"]⟩] ["https://a.com/"] (by decide)

/-! ### Claim C3: domain scoping anchored to the seed host -/

/-- C3: every URL the crawl passes to the fetcher has the seed URL's
host — a URL on another host is never fetched, no matter how many
same-domain pages link to it.  Two well-formedness hypotheses make the
statement meaningful over the abstract link extractor: normalization
preserves the host of the seed and of every extracted link, which is
true of every absolute `scheme://host/...` URL — the only kind
`parse_page` emits. -/
theorem crawl_domain_scoped (fetch : String → Nat × String) (links : String → String → List String)
    (seed : String) (N fuel : Nat) (r : List PageData) (t : List String)
    (h : crawl_site fetch links seed N fuel = some (r, t))
    (h1 : hostOf (_normalize seed) = hostOf seed)
    (h2 : ∀ url html link, link ∈ links url html → hostOf (_normalize link) = hostOf link) :
    ∀ u ∈ t, hostOf u = hostOf seed := by
  have hP := crawl_loop_trace_pred (fun u => hostOf u = hostOf seed) ?_ h ?_ ?_
  · exact hP
  · intro url html l hl hd
    have hdom : hostOf seed = hostOf l := by
      rw [_same_domain] at hd
      exact congrArg String.mk (of_decide_eq_true hd)
    rw [h2 url html l hl, ← hdom]
  · intro x hx
    rcases List.mem_cons.mp hx with he | hx2
    · rw [he]
      exact h1
    · exact absurd hx2 (List.not_mem_nil x)
  · intro x hx
    exact absurd hx (List.not_mem_nil x)

/-- C3, witness: on a site whose pages link to one same-domain URL and
one other-domain URL, the same-domain page is fetched and every fetched
URL carries the seed host. -/
theorem crawl_domain_scoped_witness :
    hostOf "https://a.com/p1" = hostOf "https://a.com" :=
  crawl_domain_scoped
    (fun _ => (200, "x"))
    (fun _ _ => ["https://a.com/p1", "https://other.example.com/q"])
    "https://a.com" 5 9
    [⟨"https://a.com/", 200, ["https://a.com/p1", "https://other.example.com/q"]⟩,
     ⟨"https://a.com/p1", 200, ["https://a.com/p1", "https://other.example.com/q"]⟩]
    ["https://a.com/", "https://a.com/p1"]
    (by decide)
    (by decide)
    (by
      intro url html link hm
      rcases List.mem_cons.mp hm with he | hm2
      · subst he
        decide
      · rcases List.mem_cons.mp hm2 with he | hm3
        · subst he
          decide
        · exact absurd hm3 (List.not_mem_nil link))
    "https://a.com/p1"
    (by decide)

/-! ### Claim C4: termination -/

/-- C4: for every seed and page limit the crawl loop completes: some
finite fuel makes `crawl_site` return `some` — the loop always ends by
exhausting the frontier or reaching `max_pages`.  (In the model every
page contributes a finite link list, so the reachable set is finite and
termination is unconditional.) -/
theorem crawl_terminates (fetch : String → Nat × String) (links : String → String → List String)
    (seed : String) (N : Nat) :
    ∃ (fuel : Nat) (r : List PageData) (t : List String),
      crawl_site fetch links seed N fuel = some (r, t) := by
  obtain ⟨fuel, out, hout⟩ := crawl_loop_terminates N [_normalize seed] [] [] []
    (Nat.sub_le N ([] : List PageData).length)
  exact ⟨fuel, out.1, out.2, hout⟩

/-! ### Claim C9: failed fetches are dropped silently -/

/-- C9: a dequeued URL whose fetch fails (status ≠ 200 or empty body)
contributes nothing: every returned record's URL fetched successfully,
the result URLs are exactly the successful entries of the fetch trace
(so failures do not count toward `max_pages`), and the trace has no
duplicates (a failed URL is never retried or re-queued); the crawl
still returns normally. -/
theorem crawl_failed_fetch_dropped (fetch : String → Nat × String)
    (links : String → String → List String)
    (seed : String) (N fuel : Nat) (r : List PageData) (t : List String)
    (h : crawl_site fetch links seed N fuel = some (r, t)) :
    (∀ p ∈ r, (fetch p.url).1 = 200 ∧ (fetch p.url).2 ≠ "") ∧
    r.map (fun p => p.url) = t.filter (fetchOk fetch) ∧
    t.Nodup := by
  refine ⟨crawl_loop_results_ok h (fun p hp => absurd hp (List.not_mem_nil p)), ?_, ?_⟩
  · exact crawl_loop_results_eq h rfl
  · exact crawl_loop_trace_nodup h List.nodup_nil (fun x hx => absurd hx (List.not_mem_nil x))

/-- C9, witness: a site with one failing page (`/bad` returns 404):
the 404 URL appears in the trace once but produces no record and does
not count toward the cap. -/
theorem crawl_failed_fetch_dropped_witness :
    (∀ p ∈ ([⟨"https://a.com/", 200, ["https://a.com/bad", "https://a.com/p1"]⟩,
             ⟨"https://a.com/p1", 200, ["https://a.com/bad", "https://a.com/p1"]⟩] : List PageData),
      ((fun u => if u = "https://a.com/bad" then ((404 : Nat), "x") else (200, "x")) p.url).1 = 200 ∧
      ((fun u => if u = "https://a.com/bad" then ((404 : Nat), "x") else (200, "x")) p.url).2 ≠ "") ∧
    ([⟨"https://a.com/", 200, ["https://a.com/bad", "https://a.com/p1"]⟩,
      ⟨"https://a.com/p1", 200, ["https://a.com/bad", "https://a.com/p1"]⟩] : List PageData).map
        (fun p => p.url)
      = (["https://a.com/", "https://a.com/bad", "https://a.com/p1"] : List String).filter
          (fetchOk (fun u => if u = "https://a.com/bad" then ((404 : Nat), "x") else (200, "x"))) ∧
    (["https://a.com/", "https://a.com/bad", "https://a.com/p1"] : List String).Nodup :=
  crawl_failed_fetch_dropped
    (fun u => if u = "https://a.com/bad" then ((404 : Nat), "x") else (200, "x"))
    (fun _ _ => ["https://a.com/bad", "https://a.com/p1"])
    "https://a.com" 5 9
    [⟨"https://a.com/", 200, ["https://a.com/bad", "https://a.com/p1"]⟩,
     ⟨"https://a.com/p1", 200, ["https://a.com/bad", "https://a.com/p1"]⟩]
    ["https://a.com/", "https://a.com/bad", "https://a.com/p1"]
    (by decide)

/-! ### Claim C10: result URLs are fixed points of normalization -/

/-- C10, counterexample: the fixed-point property does not hold
unconditionally.  On a site whose seed page carries the well-formed
same-domain link `https://a.com/a;b/c;d/` (as `parse_page` would emit
for the fetchable href `/a;b/c;d/`), the crawler enqueues and fetches
its normalization `https://a.com/a;b/c;d` and stores that as the
record's `url` — but normalizing that URL again re-splits `;d` off the
last path segment as params (the trailing slash that protected it is
gone) and yields `https://a.com/a;b/c`, so the returned record's `url`
is not a fixed point of `_normalize`. -/
theorem crawl_results_normalized_counterexample :
    crawl_site (fun _ => (200, "x"))
      (fun u _ => if u = "https://a.com/" then ["https://a.com/a;b/c;d/"] else [])
      "https://a.com" 5 9
    = some ([⟨"https://a.com/", 200, ["https://a.com/a;b/c;d/"]⟩,
             ⟨"https://a.com/a;b/c;d", 200, []⟩],
        ["https://a.com/", "https://a.com/a;b/c;d"]) ∧
    _normalize "https://a.com/a;b/c;d" = "https://a.com/a;b/c" ∧
    _normalize "https://a.com/a;b/c;d" ≠ "https://a.com/a;b/c;d" := by
  refine ⟨?_, ?_, ?_⟩
  · decide
  · decide
  · decide

/-- C10 (amended): every record returned by `crawl_site` has a `url`
that is a fixed point of `_normalize`, provided normalization is
idempotent on the seed and on every extracted link: the scheduler
fetches only normalized URLs and `parse_page` stores the fetched URL
unchanged.  The proviso is real and not a well-formedness footnote: a
well-formed fetchable link such as `https://a.com/a;b/c;d/` normalizes
to `https://a.com/a;b/c;d`, whose own normalization re-splits `;d` as
params and gives `https://a.com/a;b/c`, so without the idempotence
hypotheses the fixed-point property fails (see the counterexample
above). -/
theorem crawl_results_normalized (fetch : String → Nat × String)
    (links : String → String → List String)
    (seed : String) (N fuel : Nat) (r : List PageData) (t : List String)
    (h : crawl_site fetch links seed N fuel = some (r, t))
    (hseed : _normalize (_normalize seed) = _normalize seed)
    (hlinks : ∀ url html link, link ∈ links url html →
      _normalize (_normalize link) = _normalize link) :
    ∀ p ∈ r, _normalize p.url = p.url := by
  have hP := crawl_loop_trace_pred (fun u => _normalize u = u) ?_ h ?_ ?_
  · intro p hp
    have hmaps : r.map (fun p => p.url) = t.filter (fetchOk fetch) :=
      crawl_loop_results_eq h rfl
    have hmem : p.url ∈ t.filter (fetchOk fetch) := by
      rw [← hmaps]
      exact List.mem_map_of_mem (fun p => p.url) hp
    exact hP p.url (List.mem_of_mem_filter hmem)
  · intro url html l hl _
    exact hlinks url html l hl
  · intro x hx
    rcases List.mem_cons.mp hx with he | hx2
    · rw [he]
      exact hseed
    · exact absurd hx2 (List.not_mem_nil x)
  · intro x hx
    exact absurd hx (List.not_mem_nil x)

/-- C10, witness: the seed page record of a concrete crawl has a
normalization-fixed URL. -/
theorem crawl_results_normalized_witness :
    _normalize "https://a.com/" = "https://a.com/" :=
  crawl_results_normalized
    (fun _ => (200, "x")) (fun _ _ => ["https://a.com/p1"]) "https://a.com" 5 9
    [⟨"https://a.com/", 200, ["https://a.com/p1"]⟩,
     ⟨"https://a.com/p1", 200, ["https://a.com/p1"]⟩]
    ["https://a.com/", "https://a.com/p1"]
    (by decide)
    (by decide)
    (by
      intro url html link hm
      rcases List.mem_cons.mp hm with he | hm2
      · subst he
        decide
      · exact absurd hm2 (List.not_mem_nil link))
    ⟨"https://a.com/", 200, ["https://a.com/p1"]⟩
    (by decide)
